import Mathlib

/-!
Shallow embedding of the fog-of-war chess program (app/board.py, app/pieces.py,
app/game.py, app/ai.py) and proofs about it.

Conventions:
* Positions are pairs of integers `(row, col)`; the Python code computes
  candidate positions by integer arithmetic and checks bounds with
  `is_valid_pos`, so we use `ℤ × ℤ` and keep the bound checks explicit.
* The Python `Board.grid` is an 8×8 array of optional pieces; we embed it as a
  function `Fin 8 → Fin 8 → Option Piece`.
* Python `set` values (visibility sets) become `Finset (ℤ × ℤ)`.
* Scores in the AI are floats, but every value actually produced is an integer
  or ±infinity, so we use `WithBot (WithTop ℤ)`.
* The only sources of randomness (`random.shuffle`, `random.choice`) are passed
  in as explicit function parameters.
-/

namespace FogChess

/-- Player color, as the Python strings 'white' / 'black'. -/
inductive Color where
  | white
  | black
deriving DecidableEq

/-- Source: `opponent_color = 'white' if ai_color == 'black' else 'black'`. -/
def Color.opp : Color → Color
  | .black => .white
  | .white => .black

/-- The six piece kinds (`piece_type` property of each Python class). -/
inductive PieceType where
  | king
  | queen
  | rook
  | bishop
  | knight
  | pawn
deriving DecidableEq

/-- A chess piece.  The Python classes `King`, `Pawn`, `Rook` carry a mutable
`has_moved` flag; `Knight`, `Bishop`, `Queen` have no such attribute, which the
constructors mirror exactly. -/
inductive Piece where
  | king (color : Color) (hasMoved : Bool)
  | pawn (color : Color) (hasMoved : Bool)
  | rook (color : Color) (hasMoved : Bool)
  | knight (color : Color)
  | bishop (color : Color)
  | queen (color : Color)
deriving DecidableEq

namespace Piece

/-- The `color` attribute of a piece. -/
def color : Piece → Color
  | .king c _ => c
  | .pawn c _ => c
  | .rook c _ => c
  | .knight c => c
  | .bishop c => c
  | .queen c => c

/-- The `piece_type` property of a piece. -/
def pieceType : Piece → PieceType
  | .king _ _ => .king
  | .pawn _ _ => .pawn
  | .rook _ _ => .rook
  | .knight _ => .knight
  | .bishop _ => .bishop
  | .queen _ => .queen

/-- The `has_moved` attribute; `false` for the kinds that do not have it
(Python would raise `AttributeError`, but every access site first checks the
piece kind, so the default is never observable). -/
def hasMoved : Piece → Bool
  | .king _ m => m
  | .pawn _ m => m
  | .rook _ m => m
  | _ => false

/-- Models the Python statement `piece.has_moved = True`, guarded by
`hasattr(piece, 'has_moved')`: kinds without the attribute are unchanged. -/
def setMoved : Piece → Piece
  | .king c _ => .king c true
  | .pawn c _ => .pawn c true
  | .rook c _ => .rook c true
  | p => p

/-- The `copy` method of each piece class: a fresh piece of the same color,
copying `has_moved` where the class has it. -/
def copy : Piece → Piece
  | .king c m => .king c m
  | .pawn c m => .pawn c m
  | .rook c m => .rook c m
  | .knight c => .knight c
  | .bishop c => .bishop c
  | .queen c => .queen c

/-- The `symbol` property of each piece class. -/
def symbol : Piece → Char
  | .king c _ => if c = .white then '♔' else '♚'
  | .pawn c _ => if c = .white then '♙' else '♟'
  | .rook c _ => if c = .white then '♖' else '♜'
  | .knight c => if c = .white then '♘' else '♞'
  | .bishop c => if c = .white then '♗' else '♝'
  | .queen c => if c = .white then '♕' else '♛'

theorem copy_eq (p : Piece) : p.copy = p := by cases p <;> rfl

end Piece

/-- A board position `(row, col)` as used throughout the Python code. -/
abbrev Pos := ℤ × ℤ

/-- The 8×8 board (`Board.grid` in board.py). -/
structure Board where
  grid : Fin 8 → Fin 8 → Option Piece

namespace Board

/-- `Board.SIZE`. -/
def SIZE : ℤ := 8

/-- `0 <= row < self.SIZE and 0 <= col < self.SIZE`. -/
def inRange (p : Pos) : Prop :=
  0 ≤ p.1 ∧ p.1 < 8 ∧ 0 ≤ p.2 ∧ p.2 < 8

instance (p : Pos) : Decidable (inRange p) := by
  unfold inRange; infer_instance

theorem inRange.row_lt {p : Pos} (h : inRange p) : p.1.toNat < 8 := by
  unfold inRange at h; omega

theorem inRange.col_lt {p : Pos} (h : inRange p) : p.2.toNat < 8 := by
  unfold inRange at h; omega

/-- The row index of an in-range position, as a `Fin 8`. -/
def inRange.rowFin {p : Pos} (h : inRange p) : Fin 8 := ⟨p.1.toNat, h.row_lt⟩

/-- The column index of an in-range position, as a `Fin 8`. -/
def inRange.colFin {p : Pos} (h : inRange p) : Fin 8 := ⟨p.2.toNat, h.col_lt⟩

/-- `Board.is_valid_pos`. -/
def is_valid_pos (_b : Board) (p : Pos) : Bool :=
  decide (inRange p)

/-- `Board.get_piece`: bounds-checked lookup, `None` off the board. -/
def get_piece (b : Board) (p : Pos) : Option Piece :=
  if h : inRange p then b.grid h.rowFin h.colFin
  else none

/-- `Board.set_piece`: bounds-checked update, a no-op off the board. -/
def set_piece (b : Board) (p : Pos) (pc : Option Piece) : Board :=
  if h : inRange p then
    { grid := fun r c => if r = h.rowFin ∧ c = h.colFin then pc else b.grid r c }
  else b

/-- `Board.is_empty`. -/
def is_empty (b : Board) (p : Pos) : Bool :=
  b.get_piece p = none

theorem get_piece_not_inRange (b : Board) {p : Pos} (h : ¬ inRange p) :
    b.get_piece p = none := by
  simp [get_piece, h]

theorem get_set_self (b : Board) {p : Pos} (h : inRange p) (pc : Option Piece) :
    (b.set_piece p pc).get_piece p = pc := by
  simp [set_piece, get_piece, h]

theorem get_set_ne (b : Board) {p q : Pos} (h : q ≠ p) (pc : Option Piece) :
    (b.set_piece p pc).get_piece q = b.get_piece q := by
  unfold set_piece get_piece
  by_cases hp : inRange p
  · simp only [dif_pos hp]
    by_cases hq : inRange q
    · simp only [dif_pos hq]
      rw [if_neg]
      rintro ⟨h1, h2⟩
      apply h
      have e1 : q.1.toNat = p.1.toNat := congrArg Fin.val h1
      have e2 : q.2.toNat = p.2.toNat := congrArg Fin.val h2
      have hq1 : q.1 = p.1 := by
        unfold inRange at hp hq; omega
      have hq2 : q.2 = p.2 := by
        unfold inRange at hp hq; omega
      exact Prod.ext hq1 hq2
    · simp only [dif_neg hq]
  · simp only [dif_neg hp]

/-- The 64 board squares in row-major order, as iterated by the
`for row in range(8): for col in range(8)` loops. -/
def positions : List Pos :=
  (List.range 8).flatMap fun row =>
    (List.range 8).map fun col => ((Int.ofNat row, Int.ofNat col) : Pos)

/-- `Board.get_all_pieces`: all pieces of a color with their positions, scanned
row-major over the grid. -/
def get_all_pieces (b : Board) (c : Color) : List (Pos × Piece) :=
  positions.filterMap fun pos =>
    (b.get_piece pos).bind fun piece =>
      if piece.color = c then some (pos, piece) else none

/-- `Board.find_king`: position of the first king of the given color in
row-major order, if any. -/
def find_king (b : Board) (c : Color) : Option Pos :=
  (positions.filterMap fun pos =>
    (b.get_piece pos).bind fun piece =>
      if piece.pieceType = .king ∧ piece.color = c then some pos else none).head?

/-- `Board.copy`: a fresh board whose squares hold copies of the pieces. -/
def copy (b : Board) : Board :=
  { grid := fun r c => (b.grid r c).map Piece.copy }

end Board

/-- Movement offsets of the king (`directions` in `King.get_valid_moves`). -/
def kingDirections : List (ℤ × ℤ) :=
  [(-1, -1), (-1, 0), (-1, 1), (0, -1), (0, 1), (1, -1), (1, 0), (1, 1)]

/-- Movement offsets of the knight (`offsets` in `Knight.get_valid_moves`). -/
def knightOffsets : List (ℤ × ℤ) :=
  [(-2, -1), (-2, 1), (-1, -2), (-1, 2), (1, -2), (1, 2), (2, -1), (2, 1)]

/-- Direction set of the bishop. -/
def bishopDirections : List (ℤ × ℤ) := [(-1, -1), (-1, 1), (1, -1), (1, 1)]

/-- Direction set of the rook. -/
def rookDirections : List (ℤ × ℤ) := [(-1, 0), (1, 0), (0, -1), (0, 1)]

/-- Direction set of the queen. -/
def queenDirections : List (ℤ × ℤ) :=
  [(-1, -1), (-1, 0), (-1, 1), (0, -1), (0, 1), (1, -1), (1, 0), (1, 1)]

/-- One ray of `_get_sliding_moves`: walk from `p` in direction `d`, collecting
empty squares, stopping at the first piece (collected when it is an enemy).
The Python `while` loop is modelled with fuel; 8 steps always reach the edge of
the 8×8 board, so `slidingFuel` steps are exhaustive. -/
def slidingMovesRay (c : Color) (b : Board) : Nat → Pos → (ℤ × ℤ) → List Pos
  | 0, _, _ => []
  | fuel + 1, p, d =>
    if b.is_valid_pos p then
      match b.get_piece p with
      | none => p :: slidingMovesRay c b fuel (p.1 + d.1, p.2 + d.2) d
      | some target => if target.color ≠ c then [p] else []
    else []

/-- One ray of `_get_sliding_visibility`: every square up to and including the
first occupied one. -/
def slidingVisRay (b : Board) : Nat → Pos → (ℤ × ℤ) → Finset Pos
  | 0, _, _ => ∅
  | fuel + 1, p, d =>
    if b.is_valid_pos p then
      match b.get_piece p with
      | none => insert p (slidingVisRay b fuel (p.1 + d.1, p.2 + d.2) d)
      | some _ => {p}
    else ∅

/-- Fuel bound for the sliding-ray walks: from any starting square a ray leaves
the 8-wide board within 8 steps. -/
def slidingFuel : Nat := 8

/-- `_get_sliding_moves` (shared by Bishop, Rook, Queen). -/
def sliding_moves (c : Color) (pos : Pos) (b : Board) (dirs : List (ℤ × ℤ)) : List Pos :=
  dirs.flatMap fun d => slidingMovesRay c b slidingFuel (pos.1 + d.1, pos.2 + d.2) d

/-- `_get_sliding_visibility` (shared by Bishop, Rook, Queen). -/
def sliding_visibility (pos : Pos) (b : Board) (dirs : List (ℤ × ℤ)) : Finset Pos :=
  dirs.foldl (fun acc d => acc ∪ slidingVisRay b slidingFuel (pos.1 + d.1, pos.2 + d.2) d) ∅

/-- `King.get_valid_moves`: the 8 adjacent squares not occupied by a friendly
piece, plus the castling destinations when available. -/
def king_valid_moves (c : Color) (kingMoved : Bool) (pos : Pos) (b : Board) : List Pos :=
  let adjacent := kingDirections.filterMap fun d =>
    let q : Pos := (pos.1 + d.1, pos.2 + d.2)
    if b.is_valid_pos q then
      match b.get_piece q with
      | none => some q
      | some target => if target.color ≠ c then some q else none
    else none
  let back_row : ℤ := if c = .white then 7 else 0
  let castling :=
    if ¬kingMoved ∧ pos.1 = back_row ∧ pos.2 = 4 then
      (match b.get_piece (back_row, 7) with
        | some kr =>
            if kr.pieceType = .rook ∧ ¬kr.hasMoved ∧
                b.is_empty (back_row, 5) ∧ b.is_empty (back_row, 6) then
              [((back_row, 6) : Pos)]
            else []
        | none => []) ++
      (match b.get_piece (back_row, 0) with
        | some qr =>
            if qr.pieceType = .rook ∧ ¬qr.hasMoved ∧
                b.is_empty (back_row, 1) ∧ b.is_empty (back_row, 2) ∧
                b.is_empty (back_row, 3) then
              [((back_row, 2) : Pos)]
            else []
        | none => [])
    else []
  adjacent ++ castling

/-- `King.get_visible_squares`: the adjacent on-board squares, unconditionally. -/
def king_visible_squares (pos : Pos) (b : Board) : Finset Pos :=
  kingDirections.foldl (fun acc d =>
    let q : Pos := (pos.1 + d.1, pos.2 + d.2)
    if b.is_valid_pos q then insert q acc else acc) ∅

/-- `Pawn.get_valid_moves`: forward one (and two from the start row) onto empty
squares, diagonal captures onto enemy pieces or the en-passant target. -/
def pawn_valid_moves (c : Color) (pos : Pos) (b : Board) (ep : Option Pos) : List Pos :=
  let direction : ℤ := if c = .white then -1 else 1
  let start_row : ℤ := if c = .white then 6 else 1
  let new_row := pos.1 + direction
  let forward : List Pos :=
    if 0 ≤ new_row ∧ new_row < 8 then
      if b.is_empty (new_row, pos.2) then
        ((new_row, pos.2) : Pos) ::
          (if pos.1 = start_row then
            let two_forward := pos.1 + 2 * direction
            if (0 ≤ two_forward ∧ two_forward < 8) ∧ b.is_empty (two_forward, pos.2) then
              [((two_forward, pos.2) : Pos)]
            else []
          else [])
      else []
    else []
  let diagonal : ℤ → List Pos := fun dc =>
    let new_col := pos.2 + dc
    if (0 ≤ new_row ∧ new_row < 8) ∧ (0 ≤ new_col ∧ new_col < 8) then
      match b.get_piece (new_row, new_col) with
      | some target =>
          if target.color ≠ c then [((new_row, new_col) : Pos)]
          else if ep = some (new_row, new_col) then [((new_row, new_col) : Pos)] else []
      | none => if ep = some (new_row, new_col) then [((new_row, new_col) : Pos)] else []
    else []
  forward ++ diagonal (-1) ++ diagonal 1

/-- `Pawn.get_visible_squares`: the forward square(s) and both diagonal attack
squares, regardless of occupancy. -/
def pawn_visible_squares (c : Color) (pos : Pos) (_b : Board) : Finset Pos :=
  let direction : ℤ := if c = .white then -1 else 1
  let start_row : ℤ := if c = .white then 6 else 1
  let new_row := pos.1 + direction
  let forward : Finset Pos :=
    if 0 ≤ new_row ∧ new_row < 8 then
      insert ((new_row, pos.2) : Pos)
        (if pos.1 = start_row then
          let two_forward := pos.1 + 2 * direction
          if 0 ≤ two_forward ∧ two_forward < 8 then {((two_forward, pos.2) : Pos)} else ∅
        else ∅)
    else ∅
  let diagonal : ℤ → Finset Pos := fun dc =>
    let new_col := pos.2 + dc
    if (0 ≤ new_row ∧ new_row < 8) ∧ (0 ≤ new_col ∧ new_col < 8) then
      {((new_row, new_col) : Pos)}
    else ∅
  forward ∪ diagonal (-1) ∪ diagonal 1

/-- `Knight.get_valid_moves`: the 8 L-shaped offsets, on-board and not
friendly-occupied. -/
def knight_valid_moves (c : Color) (pos : Pos) (b : Board) : List Pos :=
  knightOffsets.filterMap fun d =>
    let q : Pos := (pos.1 + d.1, pos.2 + d.2)
    if b.is_valid_pos q then
      match b.get_piece q with
      | none => some q
      | some target => if target.color ≠ c then some q else none
    else none

/-- `Knight.get_visible_squares`: the 8 L-shaped on-board squares. -/
def knight_visible_squares (pos : Pos) (b : Board) : Finset Pos :=
  knightOffsets.foldl (fun acc d =>
    let q : Pos := (pos.1 + d.1, pos.2 + d.2)
    if b.is_valid_pos q then insert q acc else acc) ∅

/-- Dispatch of `piece.get_valid_moves(pos, board[, en_passant_target])` over
the piece kind; only the pawn's rule consults `ep`. -/
def pieceValidMoves (pc : Piece) (pos : Pos) (b : Board) (ep : Option Pos) : List Pos :=
  match pc with
  | .king c m => king_valid_moves c m pos b
  | .pawn c _ => pawn_valid_moves c pos b ep
  | .rook c _ => sliding_moves c pos b rookDirections
  | .knight c => knight_valid_moves c pos b
  | .bishop c => sliding_moves c pos b bishopDirections
  | .queen c => sliding_moves c pos b queenDirections

/-- Dispatch of `piece.get_visible_squares(pos, board)` over the piece kind. -/
def pieceVisibleSquares (pc : Piece) (pos : Pos) (b : Board) : Finset Pos :=
  match pc with
  | .king _ _ => king_visible_squares pos b
  | .pawn c _ => pawn_visible_squares c pos b
  | .rook _ _ => sliding_visibility pos b rookDirections
  | .knight _ => knight_visible_squares pos b
  | .bishop _ => sliding_visibility pos b bishopDirections
  | .queen _ => sliding_visibility pos b queenDirections

/-- `Board.get_visible_squares`: the union over the color's pieces of the
piece's own square and its visible squares. -/
def Board.get_visible_squares (b : Board) (c : Color) : Finset Pos :=
  (b.get_all_pieces c).foldl
    (fun acc pp => (insert pp.1 acc) ∪ pieceVisibleSquares pp.2 pp.1 b) ∅

/-- The `PIECE_VALUES` table of ai.py (`.get(type, 0)` never misses: every kind
is present). -/
def PIECE_VALUES : PieceType → ℤ
  | .king => 10000
  | .queen => 900
  | .rook => 500
  | .bishop => 330
  | .knight => 320
  | .pawn => 100

/-- The `POSITION_BONUS` tables of ai.py, row-major, as written for white. -/
def POSITION_BONUS : PieceType → List (List ℤ)
  | .pawn =>
    [[0, 0, 0, 0, 0, 0, 0, 0],
     [50, 50, 50, 50, 50, 50, 50, 50],
     [10, 10, 20, 30, 30, 20, 10, 10],
     [5, 5, 10, 25, 25, 10, 5, 5],
     [0, 0, 0, 20, 20, 0, 0, 0],
     [5, -5, -10, 0, 0, -10, -5, 5],
     [5, 10, 10, -20, -20, 10, 10, 5],
     [0, 0, 0, 0, 0, 0, 0, 0]]
  | .knight =>
    [[-50, -40, -30, -30, -30, -30, -40, -50],
     [-40, -20, 0, 0, 0, 0, -20, -40],
     [-30, 0, 10, 15, 15, 10, 0, -30],
     [-30, 5, 15, 20, 20, 15, 5, -30],
     [-30, 0, 15, 20, 20, 15, 0, -30],
     [-30, 5, 10, 15, 15, 10, 5, -30],
     [-40, -20, 0, 5, 5, 0, -20, -40],
     [-50, -40, -30, -30, -30, -30, -40, -50]]
  | .bishop =>
    [[-20, -10, -10, -10, -10, -10, -10, -20],
     [-10, 0, 0, 0, 0, 0, 0, -10],
     [-10, 0, 5, 10, 10, 5, 0, -10],
     [-10, 5, 5, 10, 10, 5, 5, -10],
     [-10, 0, 10, 10, 10, 10, 0, -10],
     [-10, 10, 10, 10, 10, 10, 10, -10],
     [-10, 5, 0, 0, 0, 0, 5, -10],
     [-20, -10, -10, -10, -10, -10, -10, -20]]
  | .rook =>
    [[0, 0, 0, 0, 0, 0, 0, 0],
     [5, 10, 10, 10, 10, 10, 10, 5],
     [-5, 0, 0, 0, 0, 0, 0, -5],
     [-5, 0, 0, 0, 0, 0, 0, -5],
     [-5, 0, 0, 0, 0, 0, 0, -5],
     [-5, 0, 0, 0, 0, 0, 0, -5],
     [-5, 0, 0, 0, 0, 0, 0, -5],
     [0, 0, 0, 5, 5, 0, 0, 0]]
  | .queen =>
    [[-20, -10, -10, -5, -5, -10, -10, -20],
     [-10, 0, 0, 0, 0, 0, 0, -10],
     [-10, 0, 5, 5, 5, 5, 0, -10],
     [-5, 0, 5, 5, 5, 5, 0, -5],
     [0, 0, 5, 5, 5, 5, 0, -5],
     [-10, 5, 5, 5, 5, 5, 0, -10],
     [-10, 0, 5, 0, 0, 0, 0, -10],
     [-20, -10, -10, -5, -5, -10, -10, -20]]
  | .king =>
    [[-30, -40, -40, -50, -50, -40, -40, -30],
     [-30, -40, -40, -50, -50, -40, -40, -30],
     [-30, -40, -40, -50, -50, -40, -40, -30],
     [-30, -40, -40, -50, -50, -40, -40, -30],
     [-20, -30, -30, -40, -40, -30, -30, -20],
     [-10, -20, -20, -20, -20, -20, -20, -10],
     [20, 20, 0, 0, 0, 0, 20, 20],
     [20, 30, 10, 0, 0, 10, 30, 20]]

/-- `table[row][col]` for the position tables (indices are always in range at
call sites; out-of-range defaults to 0 to totalize). -/
def tableAt (t : List (List ℤ)) (row col : ℤ) : ℤ :=
  (t.getD row.toNat []).getD col.toNat 0

/-- `AI._get_piece_value`: material value plus position bonus, the table
vertically flipped for black. -/
def AI.get_piece_value (piece : Piece) (pos : Pos) (c : Color) : ℤ :=
  let base_value := PIECE_VALUES piece.pieceType
  let row := if c = .black then 7 - pos.1 else pos.1
  base_value + tableAt (POSITION_BONUS piece.pieceType) row pos.2

/-- `AI._evaluate_board`: own material+position, minus visible enemy
material+position, minus 300 per invisible enemy piece, plus 2 per visible
square of advantage. -/
def AI.evaluate_board (b : Board) (ai_color : Color) : ℤ :=
  let opponent_color := ai_color.opp
  let visible := b.get_visible_squares ai_color
  let score0 : ℤ := 0
  let score1 := (b.get_all_pieces ai_color).foldl
    (fun s pp => s + AI.get_piece_value pp.2 pp.1 ai_color) score0
  let score2 := (b.get_all_pieces opponent_color).foldl
    (fun s pp =>
      if pp.1 ∈ visible then s - AI.get_piece_value pp.2 pp.1 opponent_color
      else s - 300) score1
  let ai_visible : ℤ := (b.get_visible_squares ai_color).card
  let opponent_visible : ℤ := (b.get_visible_squares opponent_color).card
  score2 + (ai_visible - opponent_visible) * 2

/-- `AI._make_move`: copy the board, place the source piece at the destination
and clear the source (no castling/en-passant/promotion side effects). -/
def AI.make_move (b : Board) (from_pos to_pos : Pos) : Board :=
  let new_board := b.copy
  let piece := new_board.get_piece from_pos
  (new_board.set_piece to_pos piece).set_piece from_pos none

/-- `AI._get_all_moves`: every pseudo-legal move of the color whose destination
is inside the color's visible-square set. -/
def AI.get_all_moves (b : Board) (c : Color) : List (Pos × Pos) :=
  let visible := b.get_visible_squares c
  (b.get_all_pieces c).flatMap fun pp =>
    (pieceValidMoves pp.2 pp.1 b none).filterMap fun to_pos =>
      if to_pos ∈ visible then some ((pp.1, to_pos)) else none

/-- Search scores: integers extended with `-inf` (`⊥`) and `+inf` (`⊤`),
standing for the Python floats `float('-inf')`/`float('inf')`. -/
abbrev Score := WithBot (WithTop ℤ)

/-- An integer evaluation as a `Score`. -/
def Score.ofInt (n : ℤ) : Score := ((n : WithTop ℤ) : Score)

/-- The maximizing branch of `AI._minimax`'s move loop: fold over the moves
keeping `max_eval` and `alpha`, breaking on `beta <= alpha`. -/
def abMaxLoop (f : Board → Score → Score → Score) (b : Board) :
    List (Pos × Pos) → Score → Score → Score → Score
  | [], max_eval, _, _ => max_eval
  | mv :: rest, max_eval, alpha, beta =>
    let eval_score := f (AI.make_move b mv.1 mv.2) alpha beta
    let max_eval' := max max_eval eval_score
    let alpha' := max alpha eval_score
    if beta ≤ alpha' then max_eval'
    else abMaxLoop f b rest max_eval' alpha' beta

/-- The minimizing branch of `AI._minimax`'s move loop. -/
def abMinLoop (f : Board → Score → Score → Score) (b : Board) :
    List (Pos × Pos) → Score → Score → Score → Score
  | [], min_eval, _, _ => min_eval
  | mv :: rest, min_eval, alpha, beta =>
    let eval_score := f (AI.make_move b mv.1 mv.2) alpha beta
    let min_eval' := min min_eval eval_score
    let beta' := min beta eval_score
    if beta' ≤ alpha then min_eval'
    else abMinLoop f b rest min_eval' alpha beta'

/-- `AI._minimax`: depth-bounded minimax with alpha-beta pruning.  The king
checks short-circuit to ±infinity; depth 0 and moveless nodes return the
static evaluation. -/
def AI.minimax (ai_color : Color) : Nat → Board → Score → Score → Bool → Score
  | 0, b, _, _, _ =>
    if (b.find_king ai_color).isNone then ⊥
    else if (b.find_king ai_color.opp).isNone then ⊤
    else Score.ofInt (AI.evaluate_board b ai_color)
  | depth + 1, b, alpha, beta, is_maximizing =>
    if (b.find_king ai_color).isNone then ⊥
    else if (b.find_king ai_color.opp).isNone then ⊤
    else
      let current_color := if is_maximizing then ai_color else ai_color.opp
      let moves := AI.get_all_moves b current_color
      if moves = [] then Score.ofInt (AI.evaluate_board b ai_color)
      else if is_maximizing then
        abMaxLoop (fun b' a' b'' => AI.minimax ai_color depth b' a' b'' false) b moves ⊥ alpha beta
      else
        abMinLoop (fun b' a' b'' => AI.minimax ai_color depth b' a' b'' true) b moves ⊤ alpha beta

/-- Exhaustive unpruned minimax at the same depth, over the same move
enumeration (`AI._get_all_moves`), move application (`AI._make_move`), king
short-circuits and evaluation function as `AI._minimax` — the reference the
alpha-beta search is claimed to agree with. -/
def AI.minimaxNoPrune (ai_color : Color) : Nat → Board → Bool → Score
  | 0, b, _ =>
    if (b.find_king ai_color).isNone then ⊥
    else if (b.find_king ai_color.opp).isNone then ⊤
    else Score.ofInt (AI.evaluate_board b ai_color)
  | depth + 1, b, is_maximizing =>
    if (b.find_king ai_color).isNone then ⊥
    else if (b.find_king ai_color.opp).isNone then ⊤
    else
      let current_color := if is_maximizing then ai_color else ai_color.opp
      let moves := AI.get_all_moves b current_color
      if moves = [] then Score.ofInt (AI.evaluate_board b ai_color)
      else if is_maximizing then
        moves.foldl (fun acc mv =>
          max acc (AI.minimaxNoPrune ai_color depth (AI.make_move b mv.1 mv.2) false)) ⊥
      else
        moves.foldl (fun acc mv =>
          min acc (AI.minimaxNoPrune ai_color depth (AI.make_move b mv.1 mv.2) true)) ⊤

/-- The root loop of `AI.get_move`: track `(best_move, best_score, alpha)` over
the shuffled moves (`beta` stays `+inf` and no root cutoff can fire, as in the
source, where `beta` is never updated at the root). -/
def getMoveRootLoop (ai_color : Color) (depth : Nat) (b : Board) :
    List (Pos × Pos) → Option (Pos × Pos) × Score × Score → Option (Pos × Pos) × Score × Score
  | [], st => st
  | mv :: rest, (best_move, best_score, alpha) =>
    let new_board := AI.make_move b mv.1 mv.2
    let score := AI.minimax ai_color (depth - 1) new_board alpha ⊤ false
    let st' :=
      if best_score < score then (some mv, score, max alpha score)
      else (best_move, best_score, max alpha score)
    getMoveRootLoop ai_color depth b rest st'

/-- `AI.get_move`.  The two uses of the `random` module are passed in
explicitly: `shuffle` models `random.shuffle` (a permutation) and `choice`
models `random.choice` (an element of a non-empty list). -/
def AI.get_move (shuffle : List (Pos × Pos) → List (Pos × Pos))
    (choice : List (Pos × Pos) → Option (Pos × Pos))
    (depth : Nat) (b : Board) (color : Color) : Option (Pos × Pos) :=
  let moves := AI.get_all_moves b color
  if moves = [] then none
  else
    match moves.find? (fun mv =>
        match b.get_piece mv.2 with
        | some target => target.pieceType = .king
        | none => false) with
    | some mv => some mv
    | none =>
      let shuffled := shuffle moves
      match (getMoveRootLoop color depth b shuffled (none, ⊥, ⊥)).1 with
      | some best_move => some best_move
      | none => choice shuffled

/-- The game state (`Game.__init__` fields; the embedded `AI` object is just
its fixed depth 3, so it needs no field). -/
structure Game where
  board : Board
  current_turn : Color
  game_over : Bool
  winner : Option Color
  last_move : Option (Pos × Pos)
  en_passant_target : Option Pos

/-- One square of the fog-filtered board sent to the client: the fog marker, an
empty visible square, or a visible piece's type/color/symbol dict. -/
inductive Cell where
  | fog
  | empty
  | piece (type : PieceType) (color : Color) (symbol : Char)
deriving DecidableEq

/-- The dict returned by `Game.get_visible_state`. -/
structure VisibleState where
  board : List (List Cell)
  turn : Color
  gameOver : Bool
  winner : Option Color
  lastMove : Option (Pos × Pos)
  boardSize : ℤ
deriving DecidableEq

/-- `Game.get_visible_state`: the board rendered for the white (human) player,
with fog outside white's visible squares. -/
def Game.get_visible_state (g : Game) : VisibleState :=
  let visible_squares := g.board.get_visible_squares .white
  { board := (List.range 8).map fun row =>
      (List.range 8).map fun col =>
        if ((Int.ofNat row, Int.ofNat col) : Pos) ∈ visible_squares then
          match g.board.get_piece (Int.ofNat row, Int.ofNat col) with
          | some piece => Cell.piece piece.pieceType piece.color piece.symbol
          | none => Cell.empty
        else Cell.fog
    turn := g.current_turn
    gameOver := g.game_over
    winner := g.winner
    lastMove := g.last_move
    boardSize := Board.SIZE }

/-- `Game._execute_move`.  Written as one state-passing chain in the source's
statement order; Python's in-place mutations of the moving piece and the
castling rook (`has_moved = True` after placement, through the shared object)
appear here as placing the `setMoved` piece.  The source dereferences
`piece.piece_type` unconditionally, so an empty source square (unreachable from
both callers) leaves the state unchanged here. -/
def Game.execute_move (g : Game) (from_pos to_pos : Pos) : Game :=
  match g.board.get_piece from_pos with
  | none => g
  | some piece =>
    let captured := g.board.get_piece to_pos
    -- Check for king capture
    let g :=
      if ∃ cp, captured = some cp ∧ cp.pieceType = .king then
        { g with game_over := true, winner := some piece.color }
      else g
    -- Handle en passant capture
    let g :=
      if piece.pieceType = .pawn ∧ g.en_passant_target = some to_pos then
        let captured_pawn_pos : Pos := (from_pos.1, to_pos.2)
        let captured_pawn := g.board.get_piece captured_pawn_pos
        let g :=
          if ∃ cp, captured_pawn = some cp ∧ cp.pieceType = .king then
            { g with game_over := true, winner := some piece.color }
          else g
        { g with board := g.board.set_piece captured_pawn_pos none }
      else g
    -- Reset en passant target, then set it again on a pawn double-push
    let g := { g with en_passant_target := none }
    let g :=
      if piece.pieceType = .pawn ∧ |to_pos.1 - from_pos.1| = 2 then
        let direction : ℤ := if piece.color = .white then -1 else 1
        { g with en_passant_target := some (from_pos.1 + direction, from_pos.2) }
      else g
    -- Handle castling: relocate the rook, marked as moved
    let g :=
      if piece.pieceType = .king ∧ |to_pos.2 - from_pos.2| = 2 then
        let back_row : ℤ := if piece.color = .white then 7 else 0
        if to_pos.2 = 6 then
          let rook := g.board.get_piece (back_row, 7)
          let b' := (g.board.set_piece (back_row, 5) (rook.map Piece.setMoved)).set_piece (back_row, 7) none
          { g with board := b' }
        else if to_pos.2 = 2 then
          let rook := g.board.get_piece (back_row, 0)
          let b' := (g.board.set_piece (back_row, 3) (rook.map Piece.setMoved)).set_piece (back_row, 0) none
          { g with board := b' }
        else g
      else g
    -- Move the piece (marked as moved) and clear the source square
    let g :=
      let b' := (g.board.set_piece to_pos (some piece.setMoved)).set_piece from_pos none
      { g with board := b' }
    -- Pawn promotion (auto-queen)
    let g :=
      if piece.pieceType = .pawn ∧
          to_pos.1 = (if piece.color = .white then (0 : ℤ) else 7) then
        { g with board := g.board.set_piece to_pos (some (.queen piece.color)) }
      else g
    { g with last_move := some (from_pos, to_pos) }

/-- The dict returned by `Game.make_player_move`: a failure with its error
string, or a success carrying the visible state and — only on the branch where
the AI replied — the `aiMove` entry. -/
inductive MoveOutcome where
  | failure (error : String)
  | success (state : VisibleState) (aiMove : Option (Option (Pos × Pos)))
deriving DecidableEq

/-- Whether a `make_player_move` result is a failure (`success: False`). -/
def MoveOutcome.isFailure : MoveOutcome → Bool
  | .failure _ => true
  | .success _ _ => false

/-- `Game.make_player_move`: validate (game over / turn / piece / legality),
execute, then drive the AI reply.  `shuffle`/`choice` parameterize the AI's
randomness; the AI depth is the source's fixed 3. -/
def Game.make_player_move (shuffle : List (Pos × Pos) → List (Pos × Pos))
    (choice : List (Pos × Pos) → Option (Pos × Pos))
    (g : Game) (from_pos to_pos : Pos) : MoveOutcome × Game :=
  if g.game_over then (.failure "Game is over", g)
  else if g.current_turn ≠ .white then (.failure "Not your turn", g)
  else
    match g.board.get_piece from_pos with
    | none => (.failure "No valid piece at that position", g)
    | some piece =>
      if piece.color ≠ .white then (.failure "No valid piece at that position", g)
      else
        let valid_moves := pieceValidMoves piece from_pos g.board
          (if piece.pieceType = .pawn then g.en_passant_target else none)
        if to_pos ∉ valid_moves then (.failure "Invalid move", g)
        else
          let g1 := g.execute_move from_pos to_pos
          if g1.game_over then (.success g1.get_visible_state none, g1)
          else
            let g2 := { g1 with current_turn := .black }
            let ai_move := AI.get_move shuffle choice 3 g2.board .black
            let g3 := match ai_move with
              | some mv => g2.execute_move mv.1 mv.2
              | none => g2
            let g4 := if g3.game_over then g3 else { g3 with current_turn := .white }
            (.success g4.get_visible_state (some ai_move), g4)

/-! ### Membership characterizations of the piece/visibility enumerations -/

theorem mem_positions {p : Pos} : p ∈ Board.positions ↔ Board.inRange p := by
  unfold Board.positions
  rw [List.mem_flatMap]
  constructor
  · rintro ⟨row, hrow, hmem⟩
    rw [List.mem_map] at hmem
    obtain ⟨col, hcol, hp⟩ := hmem
    rw [List.mem_range] at hrow hcol
    subst hp
    refine ⟨?_, ?_, ?_, ?_⟩ <;> simp only [Int.ofNat_eq_natCast] <;> omega
  · intro hin
    refine ⟨p.1.toNat, List.mem_range.mpr hin.row_lt, ?_⟩
    rw [List.mem_map]
    refine ⟨p.2.toNat, List.mem_range.mpr hin.col_lt, ?_⟩
    obtain ⟨h1, h2, h3, h4⟩ := hin
    refine Prod.ext ?_ ?_ <;> simp only [Int.ofNat_eq_natCast] <;> omega

theorem mem_get_all_pieces {b : Board} {c : Color} {p : Pos} {pc : Piece} :
    (p, pc) ∈ b.get_all_pieces c ↔
      Board.inRange p ∧ b.get_piece p = some pc ∧ pc.color = c := by
  unfold Board.get_all_pieces
  rw [List.mem_filterMap]
  constructor
  · rintro ⟨pos, hpos, hmem⟩
    cases hget : b.get_piece pos with
    | none => rw [hget] at hmem; exact absurd hmem (by simp)
    | some piece =>
      rw [hget, Option.some_bind] at hmem
      by_cases hc : piece.color = c
      · rw [if_pos hc] at hmem
        obtain ⟨hp, hpc⟩ := Prod.mk.injEq .. ▸ Option.some.injEq .. ▸ hmem
        subst hp; subst hpc
        exact ⟨mem_positions.mp hpos, hget, hc⟩
      · rw [if_neg hc] at hmem
        exact absurd hmem (by simp)
  · rintro ⟨hin, hget, hc⟩
    refine ⟨p, mem_positions.mpr hin, ?_⟩
    rw [hget, Option.some_bind, if_pos hc]

theorem mem_foldl_insert_union (vis : Pos × Piece → Finset Pos) :
    ∀ (l : List (Pos × Piece)) (init : Finset Pos) (q : Pos),
      (q ∈ l.foldl (fun acc pp => (insert pp.1 acc) ∪ vis pp) init ↔
        q ∈ init ∨ ∃ pp ∈ l, q = pp.1 ∨ q ∈ vis pp) := by
  intro l
  induction l with
  | nil => simp
  | cons hd tl ih =>
    intro init q
    simp only [List.foldl_cons, List.mem_cons]
    rw [ih]
    simp only [Finset.mem_union, Finset.mem_insert]
    constructor
    · rintro (((h | h) | h) | ⟨pp, hpp, h⟩)
      · exact Or.inr ⟨hd, Or.inl rfl, Or.inl h⟩
      · exact Or.inl h
      · exact Or.inr ⟨hd, Or.inl rfl, Or.inr h⟩
      · exact Or.inr ⟨pp, Or.inr hpp, h⟩
    · rintro (h | ⟨pp, (hpp | hpp), h⟩)
      · exact Or.inl (Or.inl (Or.inr h))
      · subst hpp
        rcases h with h | h
        · exact Or.inl (Or.inl (Or.inl h))
        · exact Or.inl (Or.inr h)
      · exact Or.inr ⟨pp, hpp, h⟩

theorem mem_get_visible_squares {b : Board} {c : Color} {q : Pos} :
    q ∈ b.get_visible_squares c ↔
      ∃ pp ∈ b.get_all_pieces c, q = pp.1 ∨ q ∈ pieceVisibleSquares pp.2 pp.1 b := by
  unfold Board.get_visible_squares
  rw [mem_foldl_insert_union]
  simp

theorem mem_get_all_moves {b : Board} {c : Color} {mv : Pos × Pos} :
    mv ∈ AI.get_all_moves b c ↔
      ∃ pp ∈ b.get_all_pieces c, mv.1 = pp.1 ∧
        mv.2 ∈ pieceValidMoves pp.2 pp.1 b none ∧
        mv.2 ∈ b.get_visible_squares c := by
  unfold AI.get_all_moves
  simp only [List.mem_flatMap, List.mem_filterMap]
  constructor
  · rintro ⟨pp, hpp, to_pos, hto, hif⟩
    by_cases hv : to_pos ∈ b.get_visible_squares c
    · simp only [if_pos hv, Option.some.injEq] at hif
      subst hif
      exact ⟨pp, hpp, rfl, hto, hv⟩
    · simp [hv] at hif
  · rintro ⟨pp, hpp, h1, h2, h3⟩
    refine ⟨pp, hpp, mv.2, h2, ?_⟩
    rw [if_pos h3]
    exact congrArg some (Prod.ext h1.symm rfl)

/-! ### C9: board cloning and the simplified simulated move -/

theorem copy_get_piece (b : Board) (p : Pos) : b.copy.get_piece p = b.get_piece p := by
  unfold Board.copy Board.get_piece
  split
  · show (b.grid _ _).map Piece.copy = b.grid _ _
    cases b.grid .. with
    | none => rfl
    | some pc => simp [Piece.copy_eq]
  · rfl

/-- C9: `Board.copy` agrees with the original on every square (piece kind,
color and moved-flag included, since pieces are compared as whole values), and
the search's simplified move application `AI._make_move` builds a board that
differs from the copied original only at the cleared source square and at the
destination square, which receives the piece read from the source. -/
theorem copy_and_make_move_frame :
    (∀ (b : Board) (p : Pos), b.copy.get_piece p = b.get_piece p) ∧
    (∀ (b : Board) (from_pos to_pos p : Pos), p ≠ from_pos → p ≠ to_pos →
      (AI.make_move b from_pos to_pos).get_piece p = b.get_piece p) ∧
    (∀ (b : Board) (from_pos to_pos : Pos),
      (AI.make_move b from_pos to_pos).get_piece from_pos = none) ∧
    (∀ (b : Board) (from_pos to_pos : Pos), to_pos ≠ from_pos → Board.inRange to_pos →
      (AI.make_move b from_pos to_pos).get_piece to_pos = b.get_piece from_pos) := by
  refine ⟨copy_get_piece, ?_, ?_, ?_⟩
  · intro b f t p hpf hpt
    unfold AI.make_move
    rw [Board.get_set_ne _ hpf, Board.get_set_ne _ hpt, copy_get_piece]
  · intro b f t
    unfold AI.make_move
    by_cases hf : Board.inRange f
    · rw [Board.get_set_self _ hf]
    · exact Board.get_piece_not_inRange _ hf
  · intro b f t htf ht
    unfold AI.make_move
    rw [Board.get_set_ne _ htf, Board.get_set_self _ ht, copy_get_piece]

/-- Witness for `copy_and_make_move_frame` at a concrete board and squares. -/
theorem copy_and_make_move_frame_witness :
    ((⟨fun _ _ => some (.pawn .white false)⟩ : Board).copy.get_piece (3, 3) =
      (⟨fun _ _ => some (.pawn .white false)⟩ : Board).get_piece (3, 3)) ∧
    ((AI.make_move ⟨fun _ _ => some (.pawn .white false)⟩ (0, 0) (0, 1)).get_piece (3, 3) =
      (⟨fun _ _ => some (.pawn .white false)⟩ : Board).get_piece (3, 3)) ∧
    ((AI.make_move ⟨fun _ _ => some (.pawn .white false)⟩ (0, 0) (0, 1)).get_piece (0, 0) =
      none) ∧
    ((AI.make_move ⟨fun _ _ => some (.pawn .white false)⟩ (0, 0) (0, 1)).get_piece (0, 1) =
      (⟨fun _ _ => some (.pawn .white false)⟩ : Board).get_piece (0, 0)) :=
  ⟨copy_and_make_move_frame.1 _ _,
   copy_and_make_move_frame.2.1 _ _ _ _ (by decide) (by decide),
   copy_and_make_move_frame.2.2.1 _ _ _,
   copy_and_make_move_frame.2.2.2 _ _ _ (by decide) (by decide)⟩

/-! ### C3: the static evaluation formula -/

theorem foldl_add_map (f : α → ℤ) :
    ∀ (l : List α) (a : ℤ), l.foldl (fun s x => s + f x) a = a + (l.map f).sum := by
  intro l
  induction l with
  | nil => simp
  | cons hd tl ih => intro a; simp [ih]; ring

theorem foldl_sub_split (v : Finset Pos) (f : Pos × Piece → ℤ) (k : ℤ) :
    ∀ (l : List (Pos × Piece)) (a : ℤ),
      l.foldl (fun s pp => if pp.1 ∈ v then s - f pp else s - k) a =
        a - ((l.filter (fun pp => pp.1 ∈ v)).map f).sum
          - k * (l.filter (fun pp => pp.1 ∉ v)).length := by
  intro l
  induction l with
  | nil => simp
  | cons hd tl ih =>
    intro a
    rw [List.foldl_cons]
    by_cases h : hd.1 ∈ v
    · rw [if_pos h, ih]
      have h1 : (hd :: tl).filter (fun pp => pp.1 ∈ v) =
          hd :: tl.filter (fun pp => pp.1 ∈ v) := by simp [List.filter_cons, h]
      have h2 : (hd :: tl).filter (fun pp => pp.1 ∉ v) =
          tl.filter (fun pp => pp.1 ∉ v) := by simp [List.filter_cons, h]
      rw [h1, h2]
      simp only [List.map_cons, List.sum_cons]
      ring
    · rw [if_neg h, ih]
      have h1 : (hd :: tl).filter (fun pp => pp.1 ∈ v) =
          tl.filter (fun pp => pp.1 ∈ v) := by simp [List.filter_cons, h]
      have h2 : (hd :: tl).filter (fun pp => pp.1 ∉ v) =
          hd :: tl.filter (fun pp => pp.1 ∉ v) := by simp [List.filter_cons, h]
      rw [h1, h2]
      simp only [List.length_cons]
      push_cast
      ring

/-- C3: `AI._evaluate_board` equals the closed-form fog-aware evaluation: own
material+position sum, minus the same sum over visible enemy pieces, minus a
flat 300 per invisible enemy piece, plus twice the visible-square-count
difference. -/
theorem evaluate_board_formula (b : Board) (ai_color : Color) :
    AI.evaluate_board b ai_color =
      ((b.get_all_pieces ai_color).map
          (fun pp => AI.get_piece_value pp.2 pp.1 ai_color)).sum
      - (((b.get_all_pieces ai_color.opp).filter
            (fun pp => pp.1 ∈ b.get_visible_squares ai_color)).map
          (fun pp => AI.get_piece_value pp.2 pp.1 ai_color.opp)).sum
      - 300 * ((b.get_all_pieces ai_color.opp).filter
          (fun pp => pp.1 ∉ b.get_visible_squares ai_color)).length
      + (((b.get_visible_squares ai_color).card : ℤ)
          - ((b.get_visible_squares ai_color.opp).card : ℤ)) * 2 := by
  simp only [AI.evaluate_board]
  rw [foldl_add_map, foldl_sub_split (b.get_visible_squares ai_color)
    (fun pp => AI.get_piece_value pp.2 pp.1 ai_color.opp) 300]
  ring_nf

/-! ### The initial position (`Game.__init__` / `_setup_initial_position`) -/

/-- The standard starting position, built by the same `set_piece` calls as
`Game._setup_initial_position`. -/
def initial_board : Board :=
  let b : Board := ⟨fun _ _ => none⟩
  let b := b.set_piece (7, 0) (some (.rook .white false))
  let b := b.set_piece (7, 1) (some (.knight .white))
  let b := b.set_piece (7, 2) (some (.bishop .white))
  let b := b.set_piece (7, 3) (some (.queen .white))
  let b := b.set_piece (7, 4) (some (.king .white false))
  let b := b.set_piece (7, 5) (some (.bishop .white))
  let b := b.set_piece (7, 6) (some (.knight .white))
  let b := b.set_piece (7, 7) (some (.rook .white false))
  let b := (List.range 8).foldl
    (fun b col => b.set_piece (6, Int.ofNat col) (some (.pawn .white false))) b
  let b := b.set_piece (0, 0) (some (.rook .black false))
  let b := b.set_piece (0, 1) (some (.knight .black))
  let b := b.set_piece (0, 2) (some (.bishop .black))
  let b := b.set_piece (0, 3) (some (.queen .black))
  let b := b.set_piece (0, 4) (some (.king .black false))
  let b := b.set_piece (0, 5) (some (.bishop .black))
  let b := b.set_piece (0, 6) (some (.knight .black))
  let b := b.set_piece (0, 7) (some (.rook .black false))
  (List.range 8).foldl
    (fun b col => b.set_piece (1, Int.ofNat col) (some (.pawn .black false))) b

/-- A fresh game (`Game.__init__`). -/
def Game.new : Game :=
  { board := initial_board
    current_turn := .white
    game_over := false
    winner := none
    last_move := none
    en_passant_target := none }

/-! ### C8: the fog-filtered visible state -/

theorem getD_map_range {α : Type} (n : ℕ) (f : ℕ → α) (d : α) (i : ℕ) (h : i < n) :
    ((List.range n).map f).getD i d = f i := by
  rw [List.getD_eq_getElem?_getD, List.getElem?_map, List.getElem?_range h]
  rfl

/-- C8: in `Game.get_visible_state` every square outside white's (the human
viewer's) visible-square set renders as the fog marker regardless of
occupancy; every visible square renders its piece's type, color and symbol, or
the empty marker; and the result carries the turn, game-over flag, winner,
last move and board size unchanged. -/
theorem get_visible_state_spec (g : Game) :
    (∀ row col : ℕ, row < 8 → col < 8 →
      ((Int.ofNat row, Int.ofNat col) : Pos) ∉ g.board.get_visible_squares .white →
        (g.get_visible_state.board.getD row []).getD col .fog = .fog) ∧
    (∀ row col : ℕ, row < 8 → col < 8 →
      ((Int.ofNat row, Int.ofNat col) : Pos) ∈ g.board.get_visible_squares .white →
        (g.board.get_piece (Int.ofNat row, Int.ofNat col) = none →
          (g.get_visible_state.board.getD row []).getD col .fog = .empty) ∧
        (∀ pc, g.board.get_piece (Int.ofNat row, Int.ofNat col) = some pc →
          (g.get_visible_state.board.getD row []).getD col .fog =
            .piece pc.pieceType pc.color pc.symbol)) ∧
    g.get_visible_state.turn = g.current_turn ∧
    g.get_visible_state.gameOver = g.game_over ∧
    g.get_visible_state.winner = g.winner ∧
    g.get_visible_state.lastMove = g.last_move ∧
    g.get_visible_state.boardSize = 8 := by
  refine ⟨?_, ?_, rfl, rfl, rfl, rfl, rfl⟩
  · intro row col hrow hcol hmem
    show ((Game.get_visible_state g).board.getD row []).getD col Cell.fog = Cell.fog
    unfold Game.get_visible_state
    rw [getD_map_range 8 _ _ row hrow, getD_map_range 8 _ _ col hcol, if_neg hmem]
  · intro row col hrow hcol hmem
    constructor
    · intro hempty
      show ((Game.get_visible_state g).board.getD row []).getD col Cell.fog = Cell.empty
      unfold Game.get_visible_state
      rw [getD_map_range 8 _ _ row hrow, getD_map_range 8 _ _ col hcol, if_pos hmem, hempty]
    · intro pc hpc
      show ((Game.get_visible_state g).board.getD row []).getD col Cell.fog =
        Cell.piece pc.pieceType pc.color pc.symbol
      unfold Game.get_visible_state
      rw [getD_map_range 8 _ _ row hrow, getD_map_range 8 _ _ col hcol, if_pos hmem, hpc]

/-- Witness for `get_visible_state_spec` on the initial position: square (0,0)
(black's rook, unseen by white) renders as fog, and square (6,0) (white's own
pawn) renders as that pawn. -/
theorem get_visible_state_spec_witness :
    ((Game.new.get_visible_state.board.getD 0 []).getD 0 .fog = .fog) ∧
    ((Game.new.get_visible_state.board.getD 6 []).getD 0 .fog = .piece .pawn .white '♙') :=
  ⟨(get_visible_state_spec Game.new).1 0 0 (by decide) (by decide) (by decide),
   ((get_visible_state_spec Game.new).2.1 6 0 (by decide) (by decide) (by decide)).2
     (.pawn .white false) (by decide)⟩

/-! ### Piece-rule lemmas: occupied destinations are enemy-held and visible -/

theorem slidingMovesRay_no_friendly (c : Color) (b : Board) :
    ∀ (fuel : Nat) (p : Pos) (d : ℤ × ℤ) (t : Pos) (pc : Piece),
      t ∈ slidingMovesRay c b fuel p d → b.get_piece t = some pc → pc.color ≠ c := by
  intro fuel
  induction fuel with
  | zero => intro p d t pc h; exact absurd h (by simp [slidingMovesRay])
  | succ n ih =>
    intro p d t pc h hget
    unfold slidingMovesRay at h
    by_cases hv : b.is_valid_pos p
    · rw [if_pos hv] at h
      cases hq : b.get_piece p with
      | none =>
        rw [hq] at h
        dsimp only at h
        rcases List.mem_cons.mp h with h | h
        · subst h; rw [hget] at hq; exact absurd hq (by simp)
        · exact ih _ d t pc h hget
      | some target =>
        rw [hq] at h
        dsimp only at h
        by_cases hc : target.color ≠ c
        · rw [if_pos hc] at h
          rcases List.mem_singleton.mp h with h
          subst h
          rw [hget] at hq
          cases hq
          exact hc
        · rw [if_neg hc] at h
          exact absurd h (by simp)
    · rw [if_neg hv] at h
      exact absurd h (by simp)

theorem slidingMovesRay_subset_vis (c : Color) (b : Board) :
    ∀ (fuel : Nat) (p : Pos) (d : ℤ × ℤ) (t : Pos),
      t ∈ slidingMovesRay c b fuel p d → t ∈ slidingVisRay b fuel p d := by
  intro fuel
  induction fuel with
  | zero => intro p d t h; exact absurd h (by simp [slidingMovesRay])
  | succ n ih =>
    intro p d t h
    unfold slidingMovesRay at h
    unfold slidingVisRay
    by_cases hv : b.is_valid_pos p
    · rw [if_pos hv] at h ⊢
      cases hq : b.get_piece p with
      | none =>
        rw [hq] at h
        dsimp only at h
        rcases List.mem_cons.mp h with h | h
        · subst h; exact Finset.mem_insert_self _ _
        · exact Finset.mem_insert_of_mem (ih _ d t h)
      | some target =>
        rw [hq] at h
        dsimp only at h
        by_cases hc : target.color ≠ c
        · rw [if_pos hc] at h
          rw [List.mem_singleton.mp h]
          exact Finset.mem_singleton_self _
        · rw [if_neg hc] at h
          exact absurd h (by simp)
    · rw [if_neg hv] at h
      exact absurd h (by simp)

theorem mem_sliding_moves {c : Color} {b : Board} {pos : Pos} {dirs : List (ℤ × ℤ)} {t : Pos} :
    t ∈ sliding_moves c pos b dirs ↔
      ∃ d ∈ dirs, t ∈ slidingMovesRay c b slidingFuel (pos.1 + d.1, pos.2 + d.2) d := by
  unfold sliding_moves
  exact List.mem_flatMap

theorem mem_foldl_union_ray (b : Board) (pos : Pos) :
    ∀ (dirs : List (ℤ × ℤ)) (init : Finset Pos) (q : Pos),
      (q ∈ dirs.foldl
          (fun acc d => acc ∪ slidingVisRay b slidingFuel (pos.1 + d.1, pos.2 + d.2) d) init ↔
        q ∈ init ∨ ∃ d ∈ dirs, q ∈ slidingVisRay b slidingFuel (pos.1 + d.1, pos.2 + d.2) d) := by
  intro dirs
  induction dirs with
  | nil => simp
  | cons hd tl ih =>
    intro init q
    rw [List.foldl_cons, ih]
    simp only [Finset.mem_union, List.mem_cons]
    constructor
    · rintro ((h | h) | ⟨d, hd', h⟩)
      · exact Or.inl h
      · exact Or.inr ⟨hd, Or.inl rfl, h⟩
      · exact Or.inr ⟨d, Or.inr hd', h⟩
    · rintro (h | ⟨d, (rfl | hd'), h⟩)
      · exact Or.inl (Or.inl h)
      · exact Or.inl (Or.inr h)
      · exact Or.inr ⟨d, hd', h⟩

theorem mem_sliding_visibility {b : Board} {pos : Pos} {dirs : List (ℤ × ℤ)} {q : Pos} :
    q ∈ sliding_visibility pos b dirs ↔
      ∃ d ∈ dirs, q ∈ slidingVisRay b slidingFuel (pos.1 + d.1, pos.2 + d.2) d := by
  unfold sliding_visibility
  rw [mem_foldl_union_ray]
  simp

theorem sliding_moves_subset_vis {c : Color} {b : Board} {pos : Pos} {dirs : List (ℤ × ℤ)}
    {t : Pos} (h : t ∈ sliding_moves c pos b dirs) : t ∈ sliding_visibility pos b dirs := by
  rw [mem_sliding_visibility]
  obtain ⟨d, hd, hray⟩ := mem_sliding_moves.mp h
  exact ⟨d, hd, slidingMovesRay_subset_vis c b _ _ d t hray⟩

theorem sliding_moves_no_friendly {c : Color} {b : Board} {pos : Pos} {dirs : List (ℤ × ℤ)}
    {t : Pos} {pc : Piece} (h : t ∈ sliding_moves c pos b dirs)
    (hget : b.get_piece t = some pc) : pc.color ≠ c := by
  obtain ⟨d, _, hray⟩ := mem_sliding_moves.mp h
  exact slidingMovesRay_no_friendly c b _ _ d t pc hray hget

/-- Destination characterization of the king/knight offset-move pattern. -/
theorem mem_offsets_filterMap {c : Color} {b : Board} {pos : Pos} {dirs : List (ℤ × ℤ)}
    {t : Pos} :
    t ∈ dirs.filterMap (fun d =>
      let q : Pos := (pos.1 + d.1, pos.2 + d.2)
      if b.is_valid_pos q then
        match b.get_piece q with
        | none => some q
        | some target => if target.color ≠ c then some q else none
      else none) ↔
      ∃ d ∈ dirs, t = (pos.1 + d.1, pos.2 + d.2) ∧ b.is_valid_pos t ∧
        ∀ target, b.get_piece t = some target → target.color ≠ c := by
  rw [List.mem_filterMap]
  constructor
  · rintro ⟨d, hd, hsome⟩
    by_cases hv : b.is_valid_pos (pos.1 + d.1, pos.2 + d.2)
    · rw [if_pos hv] at hsome
      cases hq : b.get_piece (pos.1 + d.1, pos.2 + d.2) with
      | none =>
        rw [hq] at hsome
        dsimp only at hsome
        cases hsome
        exact ⟨d, hd, rfl, hv, by rw [hq]; intro _ h; cases h⟩
      | some target =>
        rw [hq] at hsome
        dsimp only at hsome
        by_cases hc : target.color ≠ c
        · rw [if_pos hc] at hsome
          cases hsome
          refine ⟨d, hd, rfl, hv, ?_⟩
          rw [hq]
          rintro _ ⟨⟩
          exact hc
        · rw [if_neg hc] at hsome
          cases hsome
    · rw [if_neg hv] at hsome
      cases hsome
  · rintro ⟨d, hd, rfl, hv, htarget⟩
    refine ⟨d, hd, ?_⟩
    rw [if_pos hv]
    cases hq : b.get_piece (pos.1 + d.1, pos.2 + d.2) with
    | none => rfl
    | some target =>
      dsimp only
      rw [if_pos (htarget target hq)]

/-- Membership in the king/knight offset-visibility pattern. -/
theorem mem_offsets_foldl {b : Board} {pos : Pos} {dirs : List (ℤ × ℤ)} :
    ∀ (init : Finset Pos) (q : Pos),
      (q ∈ dirs.foldl (fun acc d =>
          let p : Pos := (pos.1 + d.1, pos.2 + d.2)
          if b.is_valid_pos p then insert p acc else acc) init ↔
        q ∈ init ∨ ∃ d ∈ dirs, q = (pos.1 + d.1, pos.2 + d.2) ∧ b.is_valid_pos q) := by
  induction dirs with
  | nil => simp
  | cons hd tl ih =>
    intro init q
    rw [List.foldl_cons]
    show q ∈ List.foldl _ (if b.is_valid_pos (pos.1 + hd.1, pos.2 + hd.2) then
      insert (pos.1 + hd.1, pos.2 + hd.2) init else init) tl ↔ _
    rw [ih]
    by_cases hv : b.is_valid_pos (pos.1 + hd.1, pos.2 + hd.2)
    · rw [if_pos hv]
      simp only [Finset.mem_insert, List.mem_cons]
      constructor
      · rintro ((rfl | h) | ⟨d, hd', h1, h2⟩)
        · exact Or.inr ⟨hd, Or.inl rfl, rfl, hv⟩
        · exact Or.inl h
        · exact Or.inr ⟨d, Or.inr hd', h1, h2⟩
      · rintro (h | ⟨d, (rfl | hd'), h1, h2⟩)
        · exact Or.inl (Or.inr h)
        · exact Or.inl (Or.inl h1)
        · exact Or.inr ⟨d, hd', h1, h2⟩
    · rw [if_neg hv]
      simp only [List.mem_cons]
      constructor
      · rintro (h | ⟨d, hd', h1, h2⟩)
        · exact Or.inl h
        · exact Or.inr ⟨d, Or.inr hd', h1, h2⟩
      · rintro (h | ⟨d, (rfl | hd'), h1, h2⟩)
        · exact Or.inl h
        · subst h1; exact absurd h2 hv
        · exact Or.inr ⟨d, hd', h1, h2⟩

theorem is_empty_iff {b : Board} {p : Pos} : b.is_empty p = true ↔ b.get_piece p = none := by
  simp [Board.is_empty]

/-- Case analysis on a pawn destination: a forward move onto an empty square
(one or two rows ahead) or a diagonal move onto an enemy piece or the
en-passant target, one column aside and one row ahead, in bounds. -/
theorem pawn_moves_elim {c : Color} {pos : Pos} {b : Board} {ep : Option Pos} {t : Pos}
    (h : t ∈ pawn_valid_moves c pos b ep) :
    (t = ((pos.1 + (if c = .white then -1 else 1), pos.2) : Pos) ∧ b.get_piece t = none)
    ∨ (t = ((pos.1 + 2 * (if c = .white then -1 else 1), pos.2) : Pos) ∧ b.get_piece t = none)
    ∨ (∃ dc : ℤ, (dc = -1 ∨ dc = 1) ∧
        t = ((pos.1 + (if c = .white then -1 else 1), pos.2 + dc) : Pos) ∧
        (0 ≤ t.1 ∧ t.1 < 8 ∧ 0 ≤ t.2 ∧ t.2 < 8) ∧
        ((∃ target, b.get_piece t = some target ∧ target.color ≠ c) ∨ ep = some t)) := by
  simp only [pawn_valid_moves, List.mem_append] at h
  have hdiag : ∀ dc : ℤ,
      t ∈ (if (0 ≤ pos.1 + (if c = .white then -1 else 1) ∧
              pos.1 + (if c = .white then -1 else 1) < 8) ∧
              (0 ≤ pos.2 + dc ∧ pos.2 + dc < 8) then
            match b.get_piece (pos.1 + (if c = .white then -1 else 1), pos.2 + dc) with
            | some target =>
                if target.color ≠ c then
                  [((pos.1 + (if c = .white then -1 else 1), pos.2 + dc) : Pos)]
                else if ep = some (pos.1 + (if c = .white then -1 else 1), pos.2 + dc) then
                  [((pos.1 + (if c = .white then -1 else 1), pos.2 + dc) : Pos)]
                else []
            | none =>
                if ep = some (pos.1 + (if c = .white then -1 else 1), pos.2 + dc) then
                  [((pos.1 + (if c = .white then -1 else 1), pos.2 + dc) : Pos)]
                else []
          else []) →
      t = ((pos.1 + (if c = .white then -1 else 1), pos.2 + dc) : Pos) ∧
        (0 ≤ t.1 ∧ t.1 < 8 ∧ 0 ≤ t.2 ∧ t.2 < 8) ∧
        ((∃ target, b.get_piece t = some target ∧ target.color ≠ c) ∨ ep = some t) := by
    intro dc hm
    by_cases hb : (0 ≤ pos.1 + (if c = .white then -1 else 1) ∧
        pos.1 + (if c = .white then -1 else 1) < 8) ∧ (0 ≤ pos.2 + dc ∧ pos.2 + dc < 8)
    · rw [if_pos hb] at hm
      cases hq : b.get_piece (pos.1 + (if c = .white then -1 else 1), pos.2 + dc) with
      | some target =>
        rw [hq] at hm
        dsimp only at hm
        by_cases hc : target.color ≠ c
        · rw [if_pos hc] at hm
          rw [List.mem_singleton.mp hm]
          exact ⟨rfl, ⟨hb.1.1, hb.1.2, hb.2.1, hb.2.2⟩, Or.inl ⟨target, hq, hc⟩⟩
        · rw [if_neg hc] at hm
          by_cases hep : ep = some (pos.1 + (if c = .white then -1 else 1), pos.2 + dc)
          · rw [if_pos hep] at hm
            rw [List.mem_singleton.mp hm]
            exact ⟨rfl, ⟨hb.1.1, hb.1.2, hb.2.1, hb.2.2⟩, Or.inr hep⟩
          · rw [if_neg hep] at hm
            exact absurd hm (by simp)
      | none =>
        rw [hq] at hm
        dsimp only at hm
        by_cases hep : ep = some (pos.1 + (if c = .white then -1 else 1), pos.2 + dc)
        · rw [if_pos hep] at hm
          rw [List.mem_singleton.mp hm]
          exact ⟨rfl, ⟨hb.1.1, hb.1.2, hb.2.1, hb.2.2⟩, Or.inr hep⟩
        · rw [if_neg hep] at hm
          exact absurd hm (by simp)
    · rw [if_neg hb] at hm
      exact absurd hm (by simp)
  rcases h with (h | h) | h
  · -- forward moves
    by_cases hb : 0 ≤ pos.1 + (if c = .white then -1 else 1) ∧
        pos.1 + (if c = .white then -1 else 1) < 8
    · rw [if_pos hb] at h
      by_cases he : b.is_empty (pos.1 + (if c = .white then -1 else 1), pos.2)
      · rw [if_pos he] at h
        rcases List.mem_cons.mp h with rfl | h
        · exact Or.inl ⟨rfl, is_empty_iff.mp he⟩
        · by_cases hs : pos.1 = (if c = .white then (6 : ℤ) else 1)
          · rw [if_pos hs] at h
            by_cases hb2 : (0 ≤ pos.1 + 2 * (if c = .white then -1 else 1) ∧
                pos.1 + 2 * (if c = .white then -1 else 1) < 8) ∧
                b.is_empty (pos.1 + 2 * (if c = .white then -1 else 1), pos.2)
            · rw [if_pos hb2] at h
              rw [List.mem_singleton.mp h]
              exact Or.inr (Or.inl ⟨rfl, is_empty_iff.mp hb2.2⟩)
            · rw [if_neg hb2] at h
              exact absurd h (by simp)
          · rw [if_neg hs] at h
            exact absurd h (by simp)
      · rw [if_neg he] at h
        exact absurd h (by simp)
    · rw [if_neg hb] at h
      exact absurd h (by simp)
  · exact Or.inr (Or.inr ⟨-1, Or.inl rfl, hdiag (-1) h⟩)
  · exact Or.inr (Or.inr ⟨1, Or.inr rfl, hdiag 1 h⟩)

theorem pawn_diag_mem_vis {c : Color} {pos : Pos} (b : Board) (dc : ℤ)
    (hdc : dc = -1 ∨ dc = 1)
    (hb : (0 ≤ pos.1 + (if c = .white then -1 else 1) ∧
        pos.1 + (if c = .white then -1 else 1) < 8) ∧ (0 ≤ pos.2 + dc ∧ pos.2 + dc < 8)) :
    ((pos.1 + (if c = .white then -1 else 1), pos.2 + dc) : Pos) ∈
      pawn_visible_squares c pos b := by
  unfold pawn_visible_squares
  dsimp only
  rcases hdc with rfl | rfl
  · refine Finset.mem_union_left _ (Finset.mem_union_right _ ?_)
    rw [if_pos hb]
    exact Finset.mem_singleton_self _
  · refine Finset.mem_union_right _ ?_
    rw [if_pos hb]
    exact Finset.mem_singleton_self _

theorem king_moves_occupied {c : Color} {m : Bool} {pos : Pos} {b : Board} {t : Pos}
    {pc : Piece} (h : t ∈ king_valid_moves c m pos b) (hget : b.get_piece t = some pc) :
    pc.color ≠ c ∧ t ∈ king_visible_squares pos b := by
  simp only [king_valid_moves, List.mem_append] at h
  rcases h with h | h
  · obtain ⟨d, hd, rfl, hv, htarget⟩ := mem_offsets_filterMap.mp h
    refine ⟨htarget pc hget, ?_⟩
    unfold king_visible_squares
    exact (mem_offsets_foldl ∅ _).mpr (Or.inr ⟨d, hd, rfl, hv⟩)
  · exfalso
    by_cases hcond : ¬m = true ∧ pos.1 = (if c = .white then (7 : ℤ) else 0) ∧ pos.2 = 4
    · rw [if_pos hcond] at h
      rcases List.mem_append.mp h with h | h
      · cases hq : b.get_piece ((if c = .white then (7 : ℤ) else 0), 7) with
        | none => rw [hq] at h; exact absurd h (by simp)
        | some kr =>
          rw [hq] at h
          dsimp only at h
          by_cases hk : kr.pieceType = PieceType.rook ∧ ¬kr.hasMoved = true ∧
              b.is_empty ((if c = .white then (7 : ℤ) else 0), 5) = true ∧
              b.is_empty ((if c = .white then (7 : ℤ) else 0), 6) = true
          · rw [if_pos hk] at h
            rw [List.mem_singleton.mp h] at hget
            rw [is_empty_iff.mp hk.2.2.2] at hget
            cases hget
          · rw [if_neg hk] at h
            exact absurd h (by simp)
      · cases hq : b.get_piece ((if c = .white then (7 : ℤ) else 0), 0) with
        | none => rw [hq] at h; exact absurd h (by simp)
        | some qr =>
          rw [hq] at h
          dsimp only at h
          by_cases hk : qr.pieceType = PieceType.rook ∧ ¬qr.hasMoved = true ∧
              b.is_empty ((if c = .white then (7 : ℤ) else 0), 1) = true ∧
              b.is_empty ((if c = .white then (7 : ℤ) else 0), 2) = true ∧
              b.is_empty ((if c = .white then (7 : ℤ) else 0), 3) = true
          · rw [if_pos hk] at h
            rw [List.mem_singleton.mp h] at hget
            rw [is_empty_iff.mp hk.2.2.2.1] at hget
            cases hget
          · rw [if_neg hk] at h
            exact absurd h (by simp)
    · rw [if_neg hcond] at h
      exact absurd h (by simp)

theorem knight_moves_occupied {c : Color} {pos : Pos} {b : Board} {t : Pos}
    {pc : Piece} (h : t ∈ knight_valid_moves c pos b) (hget : b.get_piece t = some pc) :
    pc.color ≠ c ∧ t ∈ knight_visible_squares pos b := by
  unfold knight_valid_moves at h
  obtain ⟨d, hd, rfl, hv, htarget⟩ := mem_offsets_filterMap.mp h
  refine ⟨htarget pc hget, ?_⟩
  unfold knight_visible_squares
  exact (mem_offsets_foldl ∅ _).mpr (Or.inr ⟨d, hd, rfl, hv⟩)

/-- An occupied pseudo-legal destination (with no en-passant target supplied)
always holds an enemy piece and is always among the moving piece's own visible
squares. -/
theorem pieceValidMoves_occupied {pc : Piece} {pos : Pos} {b : Board} {t : Pos} {p : Piece}
    (h : t ∈ pieceValidMoves pc pos b none) (hget : b.get_piece t = some p) :
    p.color ≠ pc.color ∧ t ∈ pieceVisibleSquares pc pos b := by
  cases pc with
  | king c m => exact king_moves_occupied h hget
  | pawn c m =>
    rcases pawn_moves_elim h with ⟨_, hnone⟩ | ⟨_, hnone⟩ | ⟨dc, hdc, rfl, hb, hcap⟩
    · rw [hnone] at hget; cases hget
    · rw [hnone] at hget; cases hget
    · rcases hcap with ⟨target, htget, hcol⟩ | hep
      · rw [htget] at hget
        cases hget
        exact ⟨hcol, pawn_diag_mem_vis b dc hdc ⟨⟨hb.1, hb.2.1⟩, ⟨hb.2.2.1, hb.2.2.2⟩⟩⟩
      · cases hep
  | rook c m => exact ⟨sliding_moves_no_friendly h hget, sliding_moves_subset_vis h⟩
  | knight c => exact knight_moves_occupied h hget
  | bishop c => exact ⟨sliding_moves_no_friendly h hget, sliding_moves_subset_vis h⟩
  | queen c => exact ⟨sliding_moves_no_friendly h hget, sliding_moves_subset_vis h⟩

/-- C10: a pseudo-legal destination holding an enemy piece always lies in the
mover's visible-square set, so the fog restriction of `AI._get_all_moves`
never removes an ordinary capture from the candidate moves. -/
theorem captures_never_fogged (b : Board) (c : Color) (pos : Pos) (pc : Piece)
    (t : Pos) (p : Piece)
    (hpiece : (pos, pc) ∈ b.get_all_pieces c)
    (hmove : t ∈ pieceValidMoves pc pos b none)
    (hocc : b.get_piece t = some p) (_henemy : p.color ≠ c) :
    t ∈ b.get_visible_squares c ∧ (pos, t) ∈ AI.get_all_moves b c := by
  have hvis := (pieceValidMoves_occupied hmove hocc).2
  have hmem : t ∈ b.get_visible_squares c :=
    mem_get_visible_squares.mpr ⟨(pos, pc), hpiece, Or.inr hvis⟩
  exact ⟨hmem, mem_get_all_moves.mpr ⟨(pos, pc), hpiece, rfl, hmove, hmem⟩⟩

/-- Witness for `captures_never_fogged`: a white rook capturing a black pawn
along its rank. -/
theorem captures_never_fogged_witness :
    ((0, 3) : Pos) ∈ (⟨fun r c =>
        if (r.val, c.val) = (0, 0) then some (.rook .white false)
        else if (r.val, c.val) = (0, 3) then some (.pawn .black false)
        else none⟩ : Board).get_visible_squares .white ∧
    (((0, 0), (0, 3)) : Pos × Pos) ∈ AI.get_all_moves (⟨fun r c =>
        if (r.val, c.val) = (0, 0) then some (.rook .white false)
        else if (r.val, c.val) = (0, 3) then some (.pawn .black false)
        else none⟩ : Board) .white :=
  captures_never_fogged _ .white (0, 0) (.rook .white false) (0, 3) (.pawn .black false)
    (by decide) (by decide) (by decide) (by decide)

/-! ### C2: immediate king capture -/

/-- C2: whenever a fog-restricted candidate move captures the enemy king,
`AI.get_move` returns a king-capturing candidate move — the same one for every
shuffle, fallback choice and depth, since the check precedes the shuffle and
the search. -/
theorem get_move_king_capture (b : Board) (c : Color)
    (h : ∃ mv ∈ AI.get_all_moves b c, ∃ target, b.get_piece mv.2 = some target ∧
        target.pieceType = .king ∧ target.color ≠ c) :
    ∃ mv, mv ∈ AI.get_all_moves b c ∧
      (∃ target, b.get_piece mv.2 = some target ∧
        target.pieceType = .king ∧ target.color ≠ c) ∧
      ∀ shuffle choice depth, AI.get_move shuffle choice depth b c = some mv := by
  obtain ⟨mv, hmv, target, htarget, hking, _⟩ := h
  have hpred : (fun mv : Pos × Pos =>
      match b.get_piece mv.2 with
      | some target => target.pieceType = PieceType.king
      | none => false) mv = true := by
    dsimp only
    rw [htarget]
    simpa using hking
  have hsome : ((AI.get_all_moves b c).find? (fun mv =>
      match b.get_piece mv.2 with
      | some target => target.pieceType = PieceType.king
      | none => false)).isSome := by
    rw [List.find?_isSome]
    exact ⟨mv, hmv, hpred⟩
  obtain ⟨mv₀, hfind⟩ := Option.isSome_iff_exists.mp hsome
  have hmem₀ : mv₀ ∈ AI.get_all_moves b c := List.mem_of_find?_eq_some hfind
  have hpred₀ := List.find?_some hfind
  have hking₀ : ∃ target, b.get_piece mv₀.2 = some target ∧
      target.pieceType = .king ∧ target.color ≠ c := by
    cases hq : b.get_piece mv₀.2 with
    | none => rw [hq] at hpred₀; exact absurd hpred₀ (by simp)
    | some tgt =>
      rw [hq] at hpred₀
      obtain ⟨pp, hpp, h1, h2, _⟩ := mem_get_all_moves.mp hmem₀
      have hcol : tgt.color ≠ pp.2.color := (pieceValidMoves_occupied h2 hq).1
      have hc : pp.2.color = c := (mem_get_all_pieces.mp hpp).2.2
      rw [hc] at hcol
      exact ⟨tgt, rfl, by simpa using hpred₀, hcol⟩
  refine ⟨mv₀, hmem₀, hking₀, ?_⟩
  intro shuffle choice depth
  unfold AI.get_move
  rw [if_neg (List.ne_nil_of_mem hmem₀), hfind]

/-- Witness for `get_move_king_capture`: a white rook with the black king in
sight along its rank. -/
theorem get_move_king_capture_witness :
    ∃ mv, mv ∈ AI.get_all_moves (⟨fun r c =>
        if (r.val, c.val) = (0, 0) then some (.rook .white false)
        else if (r.val, c.val) = (0, 3) then some (.king .black false)
        else none⟩ : Board) .white ∧
      (∃ target, (⟨fun r c =>
        if (r.val, c.val) = (0, 0) then some (.rook .white false)
        else if (r.val, c.val) = (0, 3) then some (.king .black false)
        else none⟩ : Board).get_piece mv.2 = some target ∧
        target.pieceType = .king ∧ target.color ≠ .white) ∧
      ∀ shuffle choice depth, AI.get_move shuffle choice depth (⟨fun r c =>
        if (r.val, c.val) = (0, 0) then some (.rook .white false)
        else if (r.val, c.val) = (0, 3) then some (.king .black false)
        else none⟩ : Board) .white = some mv :=
  get_move_king_capture _ .white (by decide)

/-! ### C7: the AI's candidate moves are exactly the fog-restricted moves -/

theorem getMoveRootLoop_mem (ai_color : Color) (depth : Nat) (b : Board) :
    ∀ (l : List (Pos × Pos)) (st : Option (Pos × Pos) × Score × Score) (mv : Pos × Pos),
      (getMoveRootLoop ai_color depth b l st).1 = some mv → st.1 = some mv ∨ mv ∈ l := by
  intro l
  induction l with
  | nil => intro st mv h; exact Or.inl h
  | cons hd tl ih =>
    rintro ⟨best_move, best_score, alpha⟩ mv h
    unfold getMoveRootLoop at h
    rcases ih _ mv h with h' | h'
    · by_cases hlt : best_score <
          AI.minimax ai_color (depth - 1) (AI.make_move b hd.1 hd.2) alpha ⊤ false
      · rw [if_pos hlt] at h'
        cases h'
        exact Or.inr (List.mem_cons_self _ _)
      · rw [if_neg hlt] at h'
        exact Or.inl h'
    · exact Or.inr (List.mem_cons_of_mem _ h')

/-- C7: the AI's candidate-move list contains exactly the pseudo-legal moves of
the color's pieces whose destination is visible to that color; and any move
`AI.get_move` returns (for any shuffle that permutes, any fallback choice that
picks from its list, and any depth) has a visible destination. -/
theorem ai_moves_fog_restricted :
    (∀ (b : Board) (c : Color) (mv : Pos × Pos),
      mv ∈ AI.get_all_moves b c ↔
        ∃ pp ∈ b.get_all_pieces c, mv.1 = pp.1 ∧
          mv.2 ∈ pieceValidMoves pp.2 pp.1 b none ∧
          mv.2 ∈ b.get_visible_squares c) ∧
    (∀ shuffle choice (depth : Nat) (b : Board) (c : Color) (mv : Pos × Pos),
      (∀ l, (shuffle l).Perm l) →
      (∀ (l : List (Pos × Pos)) (x : Pos × Pos), choice l = some x → x ∈ l) →
      AI.get_move shuffle choice depth b c = some mv →
      mv.2 ∈ b.get_visible_squares c) := by
  constructor
  · intro b c mv
    exact mem_get_all_moves
  · intro shuffle choice depth b c mv hsh hch hret
    suffices hmem : mv ∈ AI.get_all_moves b c by
      obtain ⟨pp, _, _, _, hvis⟩ := mem_get_all_moves.mp hmem
      exact hvis
    simp only [AI.get_move] at hret
    by_cases hnil : AI.get_all_moves b c = []
    · rw [if_pos hnil] at hret
      cases hret
    · rw [if_neg hnil] at hret
      cases hfind : (AI.get_all_moves b c).find? (fun mv =>
          match b.get_piece mv.2 with
          | some target => target.pieceType = PieceType.king
          | none => false) with
      | some mv' =>
        rw [hfind] at hret
        cases hret
        exact List.mem_of_find?_eq_some hfind
      | none =>
        rw [hfind] at hret
        dsimp only at hret
        cases hloop : (getMoveRootLoop c depth b (shuffle (AI.get_all_moves b c))
            (none, ⊥, ⊥)).1 with
        | some best_move =>
          rw [hloop] at hret
          cases hret
          rcases getMoveRootLoop_mem c depth b _ _ mv hloop with h | h
          · cases h
          · exact (hsh (AI.get_all_moves b c)).mem_iff.mp h
        | none =>
          rw [hloop] at hret
          exact (hsh (AI.get_all_moves b c)).mem_iff.mp
            (hch (shuffle (AI.get_all_moves b c)) mv hret)

/-- Witness for `ai_moves_fog_restricted`: a lone white knight's chosen move
(the fallback path of the search) lands on a visible square. -/
theorem ai_moves_fog_restricted_witness :
    ((((7, 1), (5, 0)) : Pos × Pos) ∈ AI.get_all_moves (⟨fun r c =>
        if (r.val, c.val) = (7, 1) then some (.knight .white)
        else if (r.val, c.val) = (5, 2) then some (.pawn .black false)
        else none⟩ : Board) .white ↔
      ∃ pp ∈ (⟨fun r c =>
        if (r.val, c.val) = (7, 1) then some (.knight .white)
        else if (r.val, c.val) = (5, 2) then some (.pawn .black false)
        else none⟩ : Board).get_all_pieces .white,
        ((7 : ℤ), (1 : ℤ)) = pp.1 ∧
        ((5 : ℤ), (0 : ℤ)) ∈ pieceValidMoves pp.2 pp.1 (⟨fun r c =>
          if (r.val, c.val) = (7, 1) then some (.knight .white)
          else if (r.val, c.val) = (5, 2) then some (.pawn .black false)
          else none⟩ : Board) none ∧
        ((5 : ℤ), (0 : ℤ)) ∈ (⟨fun r c =>
          if (r.val, c.val) = (7, 1) then some (.knight .white)
          else if (r.val, c.val) = (5, 2) then some (.pawn .black false)
          else none⟩ : Board).get_visible_squares .white) ∧
    (((5 : ℤ), (0 : ℤ)) : Pos) ∈ (⟨fun r c =>
        if (r.val, c.val) = (7, 1) then some (.knight .white)
        else if (r.val, c.val) = (5, 2) then some (.pawn .black false)
        else none⟩ : Board).get_visible_squares .white :=
  ⟨ai_moves_fog_restricted.1 _ .white ((7, 1), (5, 0)),
   ai_moves_fog_restricted.2 id List.head? 1 _ .white ((7, 1), (5, 0))
     (fun l => List.Perm.refl l) (fun _ _ h => List.mem_of_mem_head? h) (by decide)⟩

/-! ### C5: en passant capture -/

theorem get_set_none (b : Board) (p : Pos) : (b.set_piece p none).get_piece p = none := by
  by_cases h : Board.inRange p
  · exact Board.get_set_self b h none
  · exact Board.get_piece_not_inRange _ h

/-- The concrete en-passant position of the spec: white pawn at (3,4), black
pawn at (3,5), en-passant target (2,5), white to move. -/
def G5 : Game :=
  { board := ⟨fun r c =>
      if (r.val, c.val) = (3, 4) then some (.pawn .white false)
      else if (r.val, c.val) = (3, 5) then some (.pawn .black false)
      else none⟩
    current_turn := .white
    game_over := false
    winner := none
    last_move := none
    en_passant_target := some (2, 5) }

/-- C5: executing a pawn move onto the en-passant target removes the piece at
`(from.row, to.col)`; concretely, in `G5` the move (3,4)→(2,5) removes the
black pawn at (3,5), puts the white pawn on (2,5) and empties (3,4). -/
theorem en_passant_capture :
    (∀ (g : Game) (f t : Pos) (p : Piece),
      g.board.get_piece f = some p → p.pieceType = .pawn →
      g.en_passant_target = some t →
      t ∈ pieceValidMoves p f g.board g.en_passant_target →
      (g.execute_move f t).board.get_piece (f.1, t.2) = none) ∧
    ((G5.execute_move (3, 4) (2, 5)).board.get_piece (3, 5) = none ∧
     (G5.execute_move (3, 4) (2, 5)).board.get_piece (2, 5) = some (.pawn .white true) ∧
     (G5.execute_move (3, 4) (2, 5)).board.get_piece (3, 4) = none) := by
  constructor
  · intro g f t p hp hpw hep hmove
    obtain ⟨c, m⟩ : ∃ c m, p = Piece.pawn c m := by
      cases p <;> simp_all [Piece.pieceType]
    obtain ⟨m, rfl⟩ := m
    have hrow : t.1 ≠ f.1 := by
      have hmove' : t ∈ pawn_valid_moves c f g.board g.en_passant_target := hmove
      rcases pawn_moves_elim hmove' with ⟨ht, _⟩ | ⟨ht, _⟩ | ⟨dc, _, ht, _, _⟩ <;>
        · have := congrArg Prod.fst ht
          dsimp at this
          rw [this]
          by_cases hc : c = Color.white <;> simp [hc]
    have hne_t : ((f.1, t.2) : Pos) ≠ t := by
      intro h
      exact hrow (congrArg Prod.fst h).symm
    unfold Game.execute_move
    rw [hp]
    dsimp only
    simp only [apply_ite Game.en_passant_target, apply_ite Game.board, ite_self]
    rw [if_pos (show (Piece.pawn c m).pieceType = PieceType.pawn ∧
      g.en_passant_target = some t from ⟨rfl, hep⟩)]
    rw [if_neg (show ¬((Piece.pawn c m).pieceType = PieceType.king ∧ |t.2 - f.2| = 2) from
      by simp [Piece.pieceType])]
    by_cases hpromo : (Piece.pawn c m).pieceType = PieceType.pawn ∧
        t.1 = (if (Piece.pawn c m).color = Color.white then (0 : ℤ) else 7)
    · rw [if_pos hpromo]
      rw [Board.get_set_ne _ hne_t]
      by_cases hcol : t.2 = f.2
      · have hf : ((f.1, t.2) : Pos) = f := by
          rw [hcol]
        rw [hf, get_set_none]
      · have hnef : ((f.1, t.2) : Pos) ≠ f := by
          intro h
          exact hcol (Prod.ext_iff.mp h).2
        rw [Board.get_set_ne _ hnef, Board.get_set_ne _ hne_t, get_set_none]
    · rw [if_neg hpromo]
      by_cases hcol : t.2 = f.2
      · have hf : ((f.1, t.2) : Pos) = f := by
          rw [hcol]
        rw [hf, get_set_none]
      · have hnef : ((f.1, t.2) : Pos) ≠ f := by
          intro h
          exact hcol (Prod.ext_iff.mp h).2
        rw [Board.get_set_ne _ hnef, Board.get_set_ne _ hne_t, get_set_none]
  · refine ⟨by decide, by decide, by decide⟩

/-- Witness for `en_passant_capture`'s general part, applied to the concrete
position `G5`. -/
theorem en_passant_capture_witness :
    (G5.execute_move (3, 4) (2, 5)).board.get_piece ((3 : ℤ), (5 : ℤ)) = none :=
  en_passant_capture.1 G5 (3, 4) (2, 5) (.pawn .white false)
    (by decide) rfl rfl (by decide)

/-! ### C6: kingside castling -/

theorem back_row_white : (if Color.white = Color.white then (7 : ℤ) else 0) = 7 := rfl

theorem seven_six_not_adjacent {c : Color} {b : Board} :
    (((7 : ℤ), (6 : ℤ)) : Pos) ∉ kingDirections.filterMap (fun d =>
      let q : Pos := ((((7 : ℤ), (4 : ℤ)) : Pos).1 + d.1, (((7 : ℤ), (4 : ℤ)) : Pos).2 + d.2)
      if b.is_valid_pos q then
        match b.get_piece q with
        | none => some q
        | some target => if target.color ≠ c then some q else none
      else none) := by
  intro h
  obtain ⟨d, hd, h1, _, _⟩ := mem_offsets_filterMap.mp h
  have h2 := Prod.ext_iff.mp h1
  simp only [kingDirections, List.mem_cons, List.not_mem_nil, or_false] at hd
  rcases hd with rfl | rfl | rfl | rfl | rfl | rfl | rfl | rfl <;>
    · obtain ⟨e1, e2⟩ := h2
      dsimp at e1 e2
      omega

/-- C6: with an unmoved white king at (7,4), an unmoved rook at (7,7) and
(7,5),(7,6) empty, (7,6) is a king destination and executing (7,4)→(7,6) puts
the (moved) king on (7,6) and the (moved) rook on (7,5), emptying (7,4) and
(7,7); and (7,6) is never a king destination once either moved-flag is set or
an intervening square is occupied. -/
theorem kingside_castling :
    (∀ (g : Game),
      g.board.get_piece (7, 4) = some (.king .white false) →
      g.board.get_piece (7, 7) = some (.rook .white false) →
      g.board.get_piece (7, 5) = none →
      g.board.get_piece (7, 6) = none →
      (((7 : ℤ), (6 : ℤ)) : Pos) ∈
          pieceValidMoves (.king .white false) (7, 4) g.board none ∧
        (g.execute_move (7, 4) (7, 6)).board.get_piece (7, 6) =
          some (.king .white true) ∧
        (g.execute_move (7, 4) (7, 6)).board.get_piece (7, 5) =
          some (.rook .white true) ∧
        (g.execute_move (7, 4) (7, 6)).board.get_piece (7, 4) = none ∧
        (g.execute_move (7, 4) (7, 6)).board.get_piece (7, 7) = none) ∧
    (∀ (b : Board) (kf rf : Bool),
      b.get_piece (7, 4) = some (.king .white kf) →
      b.get_piece (7, 7) = some (.rook .white rf) →
      (kf = true ∨ rf = true ∨ b.get_piece (7, 5) ≠ none ∨ b.get_piece (7, 6) ≠ none) →
      (((7 : ℤ), (6 : ℤ)) : Pos) ∉ pieceValidMoves (.king .white kf) (7, 4) b none) := by
  constructor
  · intro g hK hR h5 h6
    have hmem : (((7 : ℤ), (6 : ℤ)) : Pos) ∈
        pieceValidMoves (.king .white false) (7, 4) g.board none := by
      show _ ∈ king_valid_moves .white false (7, 4) g.board
      unfold king_valid_moves
      rw [List.mem_append]
      right
      rw [if_pos (by refine ⟨by simp, ?_, rfl⟩; rw [back_row_white])]
      rw [List.mem_append]
      left
      rw [back_row_white, hR]
      dsimp only
      rw [if_pos ⟨rfl, by simp [Piece.hasMoved], is_empty_iff.mpr h5, is_empty_iff.mpr h6⟩]
      exact List.mem_singleton_self _
    refine ⟨hmem, ?_⟩
    unfold Game.execute_move
    rw [hK]
    dsimp only
    simp only [apply_ite Game.en_passant_target, apply_ite Game.board, ite_self,
      Piece.pieceType, Piece.color, Piece.setMoved]
    norm_num
    rw [if_neg (show ¬(PieceType.king = PieceType.pawn ∧
      g.en_passant_target = some ((7 : ℤ), (6 : ℤ))) from by simp)]
    rw [hR]
    simp only [Option.map_some']
    dsimp only [Piece.setMoved]
    refine ⟨?_, ?_, ?_, ?_⟩
    · rw [Board.get_set_ne _ (by decide), Board.get_set_self _ (by decide)]
    · rw [Board.get_set_ne _ (by decide), Board.get_set_ne _ (by decide),
        Board.get_set_ne _ (by decide), Board.get_set_self _ (by decide)]
    · rw [get_set_none]
    · rw [Board.get_set_ne _ (by decide), Board.get_set_ne _ (by decide), get_set_none]
  · intro b kf rf hK hR hbad hmem
    simp only [pieceValidMoves, king_valid_moves, List.mem_append] at hmem
    rcases hmem with hadj | hcast
    · exact seven_six_not_adjacent hadj
    · norm_num at hcast
      obtain ⟨hkf, hcast⟩ := hcast
      rcases hcast with hks | hqs
      · rw [hR] at hks
        dsimp only at hks
        by_cases hcond : (Piece.rook Color.white rf).pieceType = PieceType.rook ∧
            (Piece.rook Color.white rf).hasMoved = false ∧
            b.is_empty (7, 5) = true ∧ b.is_empty (7, 6) = true
        · rcases hbad with h | h | h | h
          · rw [hkf] at h; cases h
          · rw [h] at hcond
            exact absurd hcond.2.1 (by simp [Piece.hasMoved])
          · exact h (is_empty_iff.mp hcond.2.2.1)
          · exact h (is_empty_iff.mp hcond.2.2.2)
        · rw [if_neg hcond] at hks
          exact absurd hks (by simp)
      · cases hq : b.get_piece (7, 0) with
        | none =>
          rw [hq] at hqs
          exact absurd hqs (by simp)
        | some qr =>
          rw [hq] at hqs
          dsimp only at hqs
          by_cases hcond : qr.pieceType = PieceType.rook ∧ qr.hasMoved = false ∧
              b.is_empty (7, 1) = true ∧ b.is_empty (7, 2) = true ∧ b.is_empty (7, 3) = true
          · rw [if_pos hcond] at hqs
            rw [List.mem_singleton] at hqs
            exact absurd (Prod.ext_iff.mp hqs).2 (by norm_num)
          · rw [if_neg hcond] at hqs
            exact absurd hqs (by simp)

/-- A castling-ready position: unmoved white king and kingside rook alone. -/
def castleGame : Game :=
  { board := ⟨fun r c =>
      if (r.val, c.val) = (7, 4) then some (.king .white false)
      else if (r.val, c.val) = (7, 7) then some (.rook .white false)
      else none⟩
    current_turn := .white
    game_over := false
    winner := none
    last_move := none
    en_passant_target := none }

/-- The same position with the king's moved-flag set. -/
def castleBoardMoved : Board :=
  ⟨fun r c =>
    if (r.val, c.val) = (7, 4) then some (.king .white true)
    else if (r.val, c.val) = (7, 7) then some (.rook .white false)
    else none⟩

/-- Witness for `kingside_castling` at the concrete castling position. -/
theorem kingside_castling_witness :
    ((((7 : ℤ), (6 : ℤ)) : Pos) ∈
        pieceValidMoves (.king .white false) (7, 4) castleGame.board none ∧
      (castleGame.execute_move (7, 4) (7, 6)).board.get_piece (7, 6) =
        some (.king .white true) ∧
      (castleGame.execute_move (7, 4) (7, 6)).board.get_piece (7, 5) =
        some (.rook .white true) ∧
      (castleGame.execute_move (7, 4) (7, 6)).board.get_piece (7, 4) = none ∧
      (castleGame.execute_move (7, 4) (7, 6)).board.get_piece (7, 7) = none) ∧
    (((7 : ℤ), (6 : ℤ)) : Pos) ∉
      pieceValidMoves (.king .white true) (7, 4) castleBoardMoved none :=
  ⟨kingside_castling.1 castleGame (by decide) (by decide) (by decide) (by decide),
   kingside_castling.2 castleBoardMoved true false (by decide) (by decide) (Or.inl rfl)⟩

/-! ### C4: the move-attempt error taxonomy -/

/-- C4: `make_player_move` fails, leaving the game state untouched, exactly in
the four spec'd cases, checked in precedence order — game already over, not
white's turn, no white piece at the source, destination not pseudo-legal (with
the current en-passant target for pawns) — and succeeds otherwise. -/
theorem make_player_move_errors (shuffle : List (Pos × Pos) → List (Pos × Pos))
    (choice : List (Pos × Pos) → Option (Pos × Pos)) (g : Game) (f t : Pos) :
    (g.game_over = true →
      g.make_player_move shuffle choice f t = (.failure "Game is over", g)) ∧
    (g.game_over = false → g.current_turn ≠ .white →
      g.make_player_move shuffle choice f t = (.failure "Not your turn", g)) ∧
    (g.game_over = false → g.current_turn = .white → g.board.get_piece f = none →
      g.make_player_move shuffle choice f t =
        (.failure "No valid piece at that position", g)) ∧
    (g.game_over = false → g.current_turn = .white →
      ∀ p, g.board.get_piece f = some p → p.color ≠ .white →
      g.make_player_move shuffle choice f t =
        (.failure "No valid piece at that position", g)) ∧
    (g.game_over = false → g.current_turn = .white →
      ∀ p, g.board.get_piece f = some p → p.color = .white →
      t ∉ pieceValidMoves p f g.board
        (if p.pieceType = .pawn then g.en_passant_target else none) →
      g.make_player_move shuffle choice f t = (.failure "Invalid move", g)) ∧
    (g.game_over = false → g.current_turn = .white →
      ∀ p, g.board.get_piece f = some p → p.color = .white →
      t ∈ pieceValidMoves p f g.board
        (if p.pieceType = .pawn then g.en_passant_target else none) →
      ∃ st am, (g.make_player_move shuffle choice f t).1 = .success st am) := by
  refine ⟨?_, ?_, ?_, ?_, ?_, ?_⟩
  · intro h1
    unfold Game.make_player_move
    rw [if_pos h1]
  · intro h1 h2
    unfold Game.make_player_move
    rw [if_neg (by simp [h1]), if_pos h2]
  · intro h1 h2 h3
    unfold Game.make_player_move
    rw [if_neg (by simp [h1]), if_neg (by simp [h2]), h3]
  · intro h1 h2 p hp hc
    unfold Game.make_player_move
    rw [if_neg (by simp [h1]), if_neg (by simp [h2]), hp]
    dsimp only
    rw [if_pos hc]
  · intro h1 h2 p hp hc hnm
    unfold Game.make_player_move
    rw [if_neg (by simp [h1]), if_neg (by simp [h2]), hp]
    dsimp only
    rw [if_neg (by simp [hc]), if_pos hnm]
  · intro h1 h2 p hp hc hm
    unfold Game.make_player_move
    rw [if_neg (by simp [h1]), if_neg (by simp [h2]), hp]
    dsimp only
    rw [if_neg (by simp [hc]), if_neg (by simp [hm])]
    by_cases hgo : (g.execute_move f t).game_over = true
    · rw [if_pos hgo]
      exact ⟨_, _, rfl⟩
    · rw [if_neg hgo]
      exact ⟨_, _, rfl⟩

/-- Witness for `make_player_move_errors`: a finished game refuses any move,
untouched. -/
theorem make_player_move_errors_witness :
    ({ G5 with game_over := true } : Game).make_player_move id List.head? (6, 0) (5, 0) =
      (.failure "Game is over", { G5 with game_over := true }) :=
  (make_player_move_errors id List.head? { G5 with game_over := true } (6, 0) (5, 0)).1 rfl

/-! ### C1: alpha-beta equals exhaustive minimax

The standard fail-soft argument: at every node, the pruned value `g` and the
exhaustive value `m` satisfy `g ≤ α → m ≤ g`, `β ≤ g → g ≤ m`, and
`α < g < β → g = m`; at the full window `(⊥, ⊤)` this forces `g = m`. -/

theorem le_foldl_max {γ : Type} (h : γ → Score) :
    ∀ (l : List γ) (a : Score), a ≤ l.foldl (fun x y => max x (h y)) a := by
  intro l
  induction l with
  | nil => intro a; exact le_refl a
  | cons hd tl ih => intro a; exact le_trans (le_max_left a (h hd)) (ih (max a (h hd)))

theorem foldl_min_le {γ : Type} (h : γ → Score) :
    ∀ (l : List γ) (a : Score), l.foldl (fun x y => min x (h y)) a ≤ a := by
  intro l
  induction l with
  | nil => intro a; exact le_refl a
  | cons hd tl ih => intro a; exact le_trans (ih (min a (h hd))) (min_le_left a (h hd))

theorem abMaxLoop_spec (f : Board → Score → Score → Score) (gfun : Board → Score)
    (b : Board) (β α₀ : Score)
    (hchild : ∀ (b' : Board) (α' : Score), α' < β →
      (f b' α' β ≤ α' → gfun b' ≤ f b' α' β) ∧
      (β ≤ f b' α' β → f b' α' β ≤ gfun b') ∧
      (α' < f b' α' β → f b' α' β < β → f b' α' β = gfun b')) :
    ∀ (ms : List (Pos × Pos)) (acc pacc α : Score),
      α₀ ≤ α → α < β → pacc ≤ acc → acc ≤ max α₀ pacc → α ≤ max α₀ pacc →
      ((abMaxLoop f b ms acc α β ≤ α₀ →
          ms.foldl (fun a mv => max a (gfun (AI.make_move b mv.1 mv.2))) pacc ≤
            abMaxLoop f b ms acc α β) ∧
       (β ≤ abMaxLoop f b ms acc α β →
          abMaxLoop f b ms acc α β ≤
            ms.foldl (fun a mv => max a (gfun (AI.make_move b mv.1 mv.2))) pacc) ∧
       (α₀ < abMaxLoop f b ms acc α β → abMaxLoop f b ms acc α β < β →
          abMaxLoop f b ms acc α β =
            ms.foldl (fun a mv => max a (gfun (AI.make_move b mv.1 mv.2))) pacc)) := by
  intro ms
  induction ms with
  | nil =>
    intro acc pacc α hα₀α hαβ hpa hacc hαle
    simp only [abMaxLoop, List.foldl_nil]
    have hab : α₀ < β := lt_of_le_of_lt hα₀α hαβ
    refine ⟨fun _ => hpa, ?_, ?_⟩
    · intro hβacc
      rcases le_max_iff.mp hacc with h | h
      · exact absurd (lt_of_lt_of_le hab (le_trans hβacc h)) (lt_irrefl _)
      · exact h
    · intro hα₀acc _
      rcases le_max_iff.mp hacc with h | h
      · exact absurd (lt_of_lt_of_le hα₀acc h) (lt_irrefl _)
      · exact le_antisymm h hpa
  | cons mv ms ih =>
    intro acc pacc α hα₀α hαβ hpa hacc hαle
    simp only [abMaxLoop, List.foldl_cons]
    set s := f (AI.make_move b mv.1 mv.2) α β with hs
    set v := gfun (AI.make_move b mv.1 mv.2) with hv
    obtain ⟨T1, T2, T3⟩ := hchild (AI.make_move b mv.1 mv.2) α hαβ
    by_cases hcut : β ≤ max α s
    · rw [if_pos hcut]
      have hβs : β ≤ s := by
        rcases le_max_iff.mp hcut with h | h
        · exact absurd (lt_of_lt_of_le hαβ h) (lt_irrefl _)
        · exact h
      have hsv : s ≤ v := T2 hβs
      have hM : max pacc v ≤
          ms.foldl (fun a mv => max a (gfun (AI.make_move b mv.1 mv.2))) (max pacc v) :=
        le_foldl_max _ ms (max pacc v)
      have hβM : β ≤ ms.foldl (fun a mv => max a (gfun (AI.make_move b mv.1 mv.2)))
          (max pacc v) :=
        le_trans (le_trans hβs (le_trans hsv (le_max_right pacc v))) hM
      have hG : β ≤ max acc s := le_trans hβs (le_max_right acc s)
      refine ⟨?_, ?_, ?_⟩
      · intro hle
        exact absurd (lt_of_le_of_lt (le_trans hG hle) (lt_of_le_of_lt hα₀α hαβ))
          (lt_irrefl _)
      · intro _
        refine max_le ?_ (le_trans hsv (le_trans (le_max_right pacc v) hM))
        refine le_trans hacc (max_le ?_ (le_trans (le_max_left pacc v) hM))
        exact le_of_lt (lt_of_le_of_lt hα₀α (lt_of_lt_of_le hαβ hβM))
      · intro _ hlt
        exact absurd (lt_of_le_of_lt hG hlt) (lt_irrefl _)
    · rw [if_neg hcut]
      have hα'β : max α s < β := not_le.mp hcut
      have hsβ : s < β := lt_of_le_of_lt (le_max_right α s) hα'β
      have hsv : s ≤ α ∨ s = v := by
        by_cases hsα : s ≤ α
        · exact Or.inl hsα
        · exact Or.inr (T3 (not_le.mp hsα) hsβ)
      have hpa' : max pacc v ≤ max acc s := by
        rcases hsv with hsα | hse
        · exact max_le (le_trans hpa (le_max_left acc s))
            (le_trans (T1 hsα) (le_max_right acc s))
        · exact max_le (le_trans hpa (le_max_left acc s)) (hse ▸ le_max_right acc s)
      have hacc' : max acc s ≤ max α₀ (max pacc v) := by
        refine max_le (le_trans hacc (max_le (le_max_left _ _)
          (le_trans (le_max_left pacc v) (le_max_right _ _)))) ?_
        rcases hsv with hsα | hse
        · exact le_trans (le_trans hsα hαle) (max_le (le_max_left _ _)
            (le_trans (le_max_left pacc v) (le_max_right _ _)))
        · rw [hse]
          exact le_trans (le_max_right pacc v) (le_max_right _ _)
      have hαle' : max α s ≤ max α₀ (max pacc v) := by
        refine max_le (le_trans hαle (max_le (le_max_left _ _)
          (le_trans (le_max_left pacc v) (le_max_right _ _)))) ?_
        rcases hsv with hsα | hse
        · exact le_trans (le_trans hsα hαle) (max_le (le_max_left _ _)
            (le_trans (le_max_left pacc v) (le_max_right _ _)))
        · rw [hse]
          exact le_trans (le_max_right pacc v) (le_max_right _ _)
      exact ih (max acc s) (max pacc v) (max α s)
        (le_trans hα₀α (le_max_left α s)) hα'β hpa' hacc' hαle'

theorem abMinLoop_spec (f : Board → Score → Score → Score) (gfun : Board → Score)
    (b : Board) (α β₀ : Score)
    (hchild : ∀ (b' : Board) (β' : Score), α < β' →
      (f b' α β' ≤ α → gfun b' ≤ f b' α β') ∧
      (β' ≤ f b' α β' → f b' α β' ≤ gfun b') ∧
      (α < f b' α β' → f b' α β' < β' → f b' α β' = gfun b')) :
    ∀ (ms : List (Pos × Pos)) (acc pacc β : Score),
      β ≤ β₀ → α < β → acc ≤ pacc → min β₀ pacc ≤ acc → min β₀ pacc ≤ β →
      ((abMinLoop f b ms acc α β ≤ α →
          ms.foldl (fun a mv => min a (gfun (AI.make_move b mv.1 mv.2))) pacc ≤
            abMinLoop f b ms acc α β) ∧
       (β₀ ≤ abMinLoop f b ms acc α β →
          abMinLoop f b ms acc α β ≤
            ms.foldl (fun a mv => min a (gfun (AI.make_move b mv.1 mv.2))) pacc) ∧
       (α < abMinLoop f b ms acc α β → abMinLoop f b ms acc α β < β₀ →
          abMinLoop f b ms acc α β =
            ms.foldl (fun a mv => min a (gfun (AI.make_move b mv.1 mv.2))) pacc)) := by
  intro ms
  induction ms with
  | nil =>
    intro acc pacc β hββ₀ hαβ hap hacc hβle
    simp only [abMinLoop, List.foldl_nil]
    have hab : α < β₀ := lt_of_lt_of_le hαβ hββ₀
    refine ⟨?_, fun _ => hap, ?_⟩
    · intro haccα
      rcases min_le_iff.mp hacc with h | h
      · exact absurd (lt_of_le_of_lt (le_trans h haccα) hab) (lt_irrefl _)
      · exact h
    · intro _ haccβ₀
      rcases min_le_iff.mp hacc with h | h
      · exact absurd (lt_of_le_of_lt h haccβ₀) (lt_irrefl _)
      · exact le_antisymm hap h
  | cons mv ms ih =>
    intro acc pacc β hββ₀ hαβ hap hacc hβle
    simp only [abMinLoop, List.foldl_cons]
    set s := f (AI.make_move b mv.1 mv.2) α β with hs
    set v := gfun (AI.make_move b mv.1 mv.2) with hv
    obtain ⟨T1, T2, T3⟩ := hchild (AI.make_move b mv.1 mv.2) β hαβ
    by_cases hcut : min β s ≤ α
    · rw [if_pos hcut]
      have hsα : s ≤ α := by
        rcases min_le_iff.mp hcut with h | h
        · exact absurd (lt_of_lt_of_le hαβ h) (lt_irrefl _)
        · exact h
      have hvs : v ≤ s := T1 hsα
      have hM : ms.foldl (fun a mv => min a (gfun (AI.make_move b mv.1 mv.2)))
          (min pacc v) ≤ min pacc v :=
        foldl_min_le _ ms (min pacc v)
      have hMs : ms.foldl (fun a mv => min a (gfun (AI.make_move b mv.1 mv.2)))
          (min pacc v) ≤ s :=
        le_trans hM (le_trans (min_le_right pacc v) hvs)
      have hGs : min acc s ≤ s := min_le_right acc s
      refine ⟨?_, ?_, ?_⟩
      · intro _
        refine le_min ?_ hMs
        refine le_trans (le_min ?_ (le_trans hM (min_le_left pacc v))) hacc
        exact le_of_lt (lt_of_le_of_lt (le_trans hMs hsα) (lt_of_lt_of_le hαβ hββ₀))
      · intro hβ₀G
        exact absurd (lt_of_le_of_lt (le_trans hβ₀G (le_trans hGs hsα))
          (lt_of_lt_of_le hαβ hββ₀)) (lt_irrefl _)
      · intro hαG _
        exact absurd (lt_of_lt_of_le hαG (le_trans hGs hsα)) (lt_irrefl _)
    · rw [if_neg hcut]
      have hαβ' : α < min β s := not_le.mp hcut
      have hαs : α < s := lt_of_lt_of_le hαβ' (min_le_right β s)
      have hsv : β ≤ s ∨ s = v := by
        by_cases hβs : β ≤ s
        · exact Or.inl hβs
        · exact Or.inr (T3 hαs (not_le.mp hβs))
      have hap' : min acc s ≤ min pacc v := by
        rcases hsv with hβs | hse
        · exact min_le_min hap (T2 hβs)
        · rw [hse]
          exact min_le_min hap (le_refl v)
      have hacc' : min β₀ (min pacc v) ≤ min acc s := by
        refine le_min (le_trans (le_min (min_le_left _ _)
          (le_trans (min_le_right _ _) (min_le_left pacc v))) hacc) ?_
        rcases hsv with hβs | hse
        · exact le_trans (le_min (min_le_left _ _)
            (le_trans (min_le_right _ _) (min_le_left pacc v))) (le_trans hβle hβs)
        · rw [hse]
          exact le_trans (min_le_right _ _) (min_le_right pacc v)
      have hβle' : min β₀ (min pacc v) ≤ min β s := by
        refine le_min (le_trans (le_min (min_le_left _ _)
          (le_trans (min_le_right _ _) (min_le_left pacc v))) hβle) ?_
        rcases hsv with hβs | hse
        · exact le_trans (le_min (min_le_left _ _)
            (le_trans (min_le_right _ _) (min_le_left pacc v))) (le_trans hβle hβs)
        · rw [hse]
          exact le_trans (min_le_right _ _) (min_le_right pacc v)
      exact ih (min acc s) (min pacc v) (min β s)
        (le_trans (min_le_left β s) hββ₀) hαβ' hap' hacc' hβle'

/-- The fail-soft invariant of `AI._minimax`: relative to any window
`α < β`, the pruned value bounds the exhaustive value from the failing side and
equals it inside the window. -/
theorem minimax_soft (ai : Color) :
    ∀ (depth : Nat) (b : Board) (α β : Score) (isMax : Bool), α < β →
      ((AI.minimax ai depth b α β isMax ≤ α →
          AI.minimaxNoPrune ai depth b isMax ≤ AI.minimax ai depth b α β isMax) ∧
       (β ≤ AI.minimax ai depth b α β isMax →
          AI.minimax ai depth b α β isMax ≤ AI.minimaxNoPrune ai depth b isMax) ∧
       (α < AI.minimax ai depth b α β isMax → AI.minimax ai depth b α β isMax < β →
          AI.minimax ai depth b α β isMax = AI.minimaxNoPrune ai depth b isMax)) := by
  intro depth
  induction depth with
  | zero =>
    intro b α β isMax hαβ
    have hE : AI.minimax ai 0 b α β isMax = AI.minimaxNoPrune ai 0 b isMax := rfl
    rw [hE]
    exact ⟨fun _ => le_refl _, fun _ => le_refl _, fun _ _ => rfl⟩
  | succ d ih =>
    intro b α β isMax hαβ
    by_cases hk1 : (b.find_king ai).isNone
    · have e1 : AI.minimax ai (d + 1) b α β isMax = ⊥ := by
        rw [AI.minimax]
        rw [if_pos hk1]
      have e2 : AI.minimaxNoPrune ai (d + 1) b isMax = ⊥ := by
        rw [AI.minimaxNoPrune]
        rw [if_pos hk1]
      rw [e1, e2]
      exact ⟨fun _ => le_refl _, fun _ => le_refl _, fun _ _ => rfl⟩
    · by_cases hk2 : (b.find_king ai.opp).isNone
      · have e1 : AI.minimax ai (d + 1) b α β isMax = ⊤ := by
          rw [AI.minimax]
          rw [if_neg hk1, if_pos hk2]
        have e2 : AI.minimaxNoPrune ai (d + 1) b isMax = ⊤ := by
          rw [AI.minimaxNoPrune]
          rw [if_neg hk1, if_pos hk2]
        rw [e1, e2]
        exact ⟨fun _ => le_refl _, fun _ => le_refl _, fun _ _ => rfl⟩
      · cases isMax with
        | true =>
          by_cases hmv : AI.get_all_moves b ai = []
          · have e1 : AI.minimax ai (d + 1) b α β true =
                Score.ofInt (AI.evaluate_board b ai) := by
              rw [AI.minimax]
              rw [if_neg hk1, if_neg hk2]
              dsimp only
              simp only [eq_self_iff_true, if_true]
              rw [if_pos hmv]
            have e2 : AI.minimaxNoPrune ai (d + 1) b true =
                Score.ofInt (AI.evaluate_board b ai) := by
              rw [AI.minimaxNoPrune]
              rw [if_neg hk1, if_neg hk2]
              dsimp only
              simp only [eq_self_iff_true, if_true]
              rw [if_pos hmv]
            rw [e1, e2]
            exact ⟨fun _ => le_refl _, fun _ => le_refl _, fun _ _ => rfl⟩
          · have e1 : AI.minimax ai (d + 1) b α β true =
                abMaxLoop (fun b' a' b'' => AI.minimax ai d b' a' b'' false) b
                  (AI.get_all_moves b ai) ⊥ α β := by
              rw [AI.minimax]
              rw [if_neg hk1, if_neg hk2]
              dsimp only
              simp only [eq_self_iff_true, if_true]
              rw [if_neg hmv]
            have e2 : AI.minimaxNoPrune ai (d + 1) b true =
                (AI.get_all_moves b ai).foldl (fun acc mv =>
                  max acc (AI.minimaxNoPrune ai d (AI.make_move b mv.1 mv.2) false)) ⊥ := by
              rw [AI.minimaxNoPrune]
              rw [if_neg hk1, if_neg hk2]
              dsimp only
              simp only [eq_self_iff_true, if_true]
              rw [if_neg hmv]
            rw [e1, e2]
            exact abMaxLoop_spec (fun b' a' b'' => AI.minimax ai d b' a' b'' false)
              (fun b' => AI.minimaxNoPrune ai d b' false) b β α
              (fun b' α' hα' => ih b' α' β false hα')
              (AI.get_all_moves b ai) ⊥ ⊥ α (le_refl α) hαβ (le_refl ⊥) bot_le
              (le_max_left α ⊥)
        | false =>
          by_cases hmv : AI.get_all_moves b ai.opp = []
          · have e1 : AI.minimax ai (d + 1) b α β false =
                Score.ofInt (AI.evaluate_board b ai) := by
              rw [AI.minimax]
              rw [if_neg hk1, if_neg hk2]
              dsimp only
              simp only [Bool.false_eq_true, if_false]
              rw [if_pos hmv]
            have e2 : AI.minimaxNoPrune ai (d + 1) b false =
                Score.ofInt (AI.evaluate_board b ai) := by
              rw [AI.minimaxNoPrune]
              rw [if_neg hk1, if_neg hk2]
              dsimp only
              simp only [Bool.false_eq_true, if_false]
              rw [if_pos hmv]
            rw [e1, e2]
            exact ⟨fun _ => le_refl _, fun _ => le_refl _, fun _ _ => rfl⟩
          · have e1 : AI.minimax ai (d + 1) b α β false =
                abMinLoop (fun b' a' b'' => AI.minimax ai d b' a' b'' true) b
                  (AI.get_all_moves b ai.opp) ⊤ α β := by
              rw [AI.minimax]
              rw [if_neg hk1, if_neg hk2]
              dsimp only
              simp only [Bool.false_eq_true, if_false]
              rw [if_neg hmv]
            have e2 : AI.minimaxNoPrune ai (d + 1) b false =
                (AI.get_all_moves b ai.opp).foldl (fun acc mv =>
                  min acc (AI.minimaxNoPrune ai d (AI.make_move b mv.1 mv.2) true)) ⊤ := by
              rw [AI.minimaxNoPrune]
              rw [if_neg hk1, if_neg hk2]
              dsimp only
              simp only [Bool.false_eq_true, if_false]
              rw [if_neg hmv]
            rw [e1, e2]
            exact abMinLoop_spec (fun b' a' b'' => AI.minimax ai d b' a' b'' true)
              (fun b' => AI.minimaxNoPrune ai d b' true) b α β
              (fun b' β' hβ' => ih b' α β' true hβ')
              (AI.get_all_moves b ai.opp) ⊤ ⊤ β (le_refl β) hαβ (le_refl ⊤) le_top
              (min_le_left β ⊤)

/-- C1: called on the full window (alpha = -∞, beta = +∞), the alpha-beta
search `AI._minimax` returns exactly the value of the exhaustive unpruned
minimax of the same depth over the same move enumeration, move application and
evaluation function, for every board, depth, flag and AI color. -/
theorem alphabeta_eq_minimax (ai_color : Color) (depth : Nat) (b : Board)
    (is_maximizing : Bool) :
    AI.minimax ai_color depth b ⊥ ⊤ is_maximizing =
      AI.minimaxNoPrune ai_color depth b is_maximizing := by
  have hbt : (⊥ : Score) < ⊤ := by decide
  obtain ⟨P1, P2, P3⟩ := minimax_soft ai_color depth b ⊥ ⊤ is_maximizing hbt
  rcases le_or_lt (AI.minimax ai_color depth b ⊥ ⊤ is_maximizing) ⊥ with hbot | hbot
  · exact le_antisymm (le_trans hbot bot_le) (P1 hbot)
  · rcases le_or_lt ⊤ (AI.minimax ai_color depth b ⊥ ⊤ is_maximizing) with htop | htop
    · exact le_antisymm (P2 htop) (le_trans le_top htop)
    · exact P3 hbot htop

end FogChess
